import Mathlib

/-!
Verification of the nanodoc document assembler against its natural-language
specification.

The Python sources are shallowly embedded: Python strings become lists of
characters (so that line splitting, joining and slicing are fully
executable), fallible code returns Except values mirroring the raised
exceptions, and the file system is an explicit finite map from paths to
contents.  Unless a doc comment says otherwise, every definition below is a
direct translation of the correspondingly named function of
src/nanodoc/nanodoc.py or src/nanodoc/data.py.
-/

set_option maxRecDepth 10000

namespace Nanodoc

/-- A Python string, embedded as a list of characters. -/
abbrev Str := List Char

/-- Coerce a Lean string literal into the embedding. -/
def strOf (s : String) : Str := s.data

/-- Characters Python str.strip and int() treat as whitespace (ASCII model). -/
def pyWs (c : Char) : Bool :=
  c == ' ' || c == '\t' || c == '\n' || c == '\x0d' || c == '\x0b' || c == '\x0c'

/-- str.strip with an arbitrary character class: drop from both ends. -/
def pyStripWith (p : Char → Bool) (s : Str) : Str :=
  ((s.dropWhile p).reverse.dropWhile p).reverse

/-- str.strip() with no arguments: strip ASCII whitespace from both ends. -/
def pyStrip (s : Str) : Str := pyStripWith pyWs s

/-- Digit tail of a Python integer literal: digits, with single underscores
allowed between digits (Python 3 int() grammar, ASCII model).  The
accumulator holds the value of the digits already consumed. -/
def pyDigitsAux (acc : Nat) : Str → Option Nat
  | [] => some acc
  | c :: rest =>
    if c.isDigit then pyDigitsAux (acc * 10 + (c.toNat - 48)) rest
    else if c = '_' then
      match rest with
      | d :: rest2 =>
        if d.isDigit then pyDigitsAux (acc * 10 + (d.toNat - 48)) rest2 else none
      | [] => none
    else none

/-- A nonempty digit sequence (with internal underscores), as accepted by
Python int() after sign and whitespace handling. -/
def pyDigits : Str → Option Nat
  | [] => none
  | c :: rest => if c.isDigit then pyDigitsAux (c.toNat - 48) rest else none

/-- Python int(str): strips whitespace, accepts one optional sign, then a
digit sequence; any other input raises ValueError (here: none). -/
def pyInt (s : Str) : Option Int :=
  let t := pyStrip s
  match t with
  | '+' :: rest => (pyDigits rest).map Int.ofNat
  | '-' :: rest => (pyDigits rest).map (fun n => -(Int.ofNat n))
  | _ => (pyDigits t).map Int.ofNat

/-- Standard decimal digit extraction, with fuel to keep the recursion
structural (the fuel n+1 always suffices since n shrinks by a factor 10
per step). -/
def natToStrAux : Nat → Nat → Str → Str
  | 0, _, acc => acc
  | fuel + 1, n, acc =>
    if n < 10 then Nat.digitChar n :: acc
    else natToStrAux fuel (n / 10) (Nat.digitChar (n % 10) :: acc)

/-- Decimal rendering of a natural number, as Python str() produces it. -/
def natToStr (n : Nat) : Str := natToStrAux (n + 1) n []

/-- Decimal rendering of a Python int. -/
def intToStr (i : Int) : Str :=
  if i < 0 then '-' :: natToStr i.natAbs else natToStr i.toNat

/-- str.split(sep) for a one-character separator; like Python it returns
one (possibly empty) field more than the number of separators. -/
def splitOnChar (sep : Char) : Str → List Str
  | [] => [[]]
  | c :: rest =>
    if c = sep then [] :: splitOnChar sep rest
    else
      match splitOnChar sep rest with
      | [] => [[c]]
      | l :: ls => (c :: l) :: ls

/-- str.splitlines(keepends=True) restricted to the newline character, which
is also exactly what file.readlines() returns for the file content. -/
def splitlinesKeep : Str → List Str
  | [] => []
  | c :: rest =>
    if c = '\n' then ['\n'] :: splitlinesKeep rest
    else
      match splitlinesKeep rest with
      | [] => [[c]]
      | l :: ls => (c :: l) :: ls

/-- Drop a single trailing newline from one kept line. -/
def stripNl (l : Str) : Str :=
  if l.getLast? = some '\n' then l.dropLast else l

/-- str.splitlines() (without keepends), restricted to newline characters. -/
def splitlines (s : Str) : List Str := (splitlinesKeep s).map stripNl

/-- str.rstrip over the single-character class newline: removes every
trailing newline character (Python rstrip removes all of them, not one). -/
def rstripNl (s : Str) : Str := (s.reverse.dropWhile (· = '\n')).reverse

/-- Normalization of one Python slice index against a list of length n:
negative indices count from the end, and the result is clamped to 0..n. -/
def pySliceIdx (n : Nat) (i : Int) : Nat :=
  (if i < 0 then max 0 ((n : Int) + i) else min i n).toNat

/-- Python list slicing l[a:b] for int indices. -/
def pySlice {α : Type} (l : List α) (a b : Int) : List α :=
  (l.take (pySliceIdx l.length b)).drop (pySliceIdx l.length a)

/-!
## parse_line_reference (src/nanodoc/nanodoc.py, lines 124-174)

The function raises ValueError on malformed selectors; the embedding
returns the error message in the Except error branch.
-/

/-- One comma-separated segment of a line reference, as handled by the loop
body of parse_line_reference.  Mirrors the source: the segment must start
with the marker L; a segment whose numeric part contains a dash is parsed
as a range (any int() failure or wrong field count reports an invalid range
format, positivity is checked, then start greater than end is rejected);
otherwise it is a single line number. -/
def parseSegment (part : Str) : Except Str (Int × Int) :=
  match part with
  | 'L' :: numPart =>
    if numPart.contains '-' then
      match splitOnChar '-' numPart with
      | [s, e] =>
        match pyInt s, pyInt e with
        | some st, some en =>
          if st ≤ 0 ∨ en ≤ 0 then
            .error (strOf "Line numbers must be positive: " ++ part)
          else if st > en then
            .error (strOf "Start line must be less than or equal to end line: " ++ part)
          else .ok (st, en)
        | _, _ => .error (strOf "Invalid line range format: " ++ part)
      | _ => .error (strOf "Invalid line range format: " ++ part)
    else
      match pyInt numPart with
      | some n =>
        if n ≤ 0 then .error (strOf "Line number must be positive: " ++ part)
        else .ok (n, n)
      | none => .error (strOf "Invalid line number format: " ++ part)
  | _ => .error (strOf "Invalid line reference format: " ++ part)

/-- The parts loop of parse_line_reference: parse each comma-separated
segment in order, appending the resulting pairs to the output list. -/
def parseSegments : List Str → Except Str (List (Int × Int))
  | [] => .ok []
  | p :: ps =>
    match parseSegment p with
    | .error e => .error e
    | .ok r =>
      match parseSegments ps with
      | .error e => .error e
      | .ok rest => .ok (r :: rest)

/-- parse_line_reference: split the selector on commas and parse each
segment in order, collecting the (start, end) pairs. -/
def parseLineReference (lineRef : Str) : Except Str (List (Int × Int)) :=
  if lineRef = [] then .error (strOf "Empty line reference")
  else parseSegments (splitOnChar ',' lineRef)

example : parseLineReference (strOf "L5,L10-15,L20") =
    .ok [(5, 5), (10, 15), (20, 20)] := by rfl

example : parseLineReference (strOf "L5-3") =
    .error (strOf "Start line must be less than or equal to end line: L5-3") := by rfl

example : parseLineReference (strOf "L5bad") =
    .error (strOf "Invalid line number format: L5bad") := by rfl

example : parseLineReference (strOf "L-5") =
    .error (strOf "Invalid line range format: L-5") := by rfl

/-!
## File system model

Python touches the file system through os.path.exists, os.access,
os.path.isdir, os.path.isfile and open().  The embedding uses a finite
map from paths to file contents, together with the sets of directory
paths and unreadable paths.
-/

/-- Python exceptions raised by the embedded code, with their messages. -/
inductive PyErr where
  | fileNotFound (msg : Str)
  | permissionError (msg : Str)
  | isADirectoryError (msg : Str)
  | valueError (msg : Str)
  deriving DecidableEq

/-- The file system as the embedded functions observe it. -/
structure FS where
  files : List (Str × Str)
  dirs : List Str
  unreadable : List Str

/-- Content of a regular file, when the path names one. -/
def FS.lookupFile (fs : FS) (p : Str) : Option Str :=
  (fs.files.find? (fun q => q.1 = p)).map (fun q => q.2)

/-- os.path.isfile. -/
def FS.isFile (fs : FS) (p : Str) : Bool := (fs.lookupFile p).isSome

/-- os.path.isdir. -/
def FS.isDir (fs : FS) (p : Str) : Bool := fs.dirs.contains p

/-- os.path.exists. -/
def FS.exists (fs : FS) (p : Str) : Bool := fs.isFile p || fs.isDir p

/-- os.access(p, os.R_OK). -/
def FS.readable (fs : FS) (p : Str) : Bool := !(fs.unreadable.contains p)

/-- Python open(p).read()/readlines() access: raises FileNotFoundError for a
missing path, IsADirectoryError for a directory, PermissionError for an
unreadable file, and otherwise returns the file content. -/
def pyOpenRead (fs : FS) (p : Str) : Except PyErr Str :=
  match fs.lookupFile p with
  | some c =>
    if fs.readable p then .ok c
    else .error (.permissionError p)
  | none =>
    if fs.isDir p then .error (.isADirectoryError p)
    else .error (.fileNotFound p)

/-!
## LineRange and ContentItem (src/nanodoc/data.py)
-/

/-- The end of a LineRange: a line number, or the end-of-file sentinel that
data.py stores as the string X. -/
inductive LineEnd where
  | num (n : Int)
  | X
  deriving DecidableEq

/-- LineRange from data.py.  The field named end in Python is called rend
here because end is a Lean keyword. -/
structure LineRange where
  start : Int
  rend : LineEnd
  deriving DecidableEq

/-- LineRange.is_single_line. -/
def LineRange.is_single_line (r : LineRange) : Bool :=
  match r.rend with
  | .num n => r.start = n
  | .X => false

/-- LineRange.normalize: convert to actual line numbers given the file
length, resolving the sentinel to max_lines. -/
def LineRange.normalize (r : LineRange) (maxLines : Int) : Int × Int :=
  match r.rend with
  | .num n => (r.start, n)
  | .X => (r.start, maxLines)

/-- LineRange.to_string. -/
def LineRange.to_string (r : LineRange) : Str :=
  if r.is_single_line then strOf "L" ++ intToStr r.start
  else
    match r.rend with
    | .X => strOf "L" ++ intToStr r.start ++ strOf "-X"
    | .num n => strOf "L" ++ intToStr r.start ++ strOf "-" ++ intToStr n

/-- ContentItem from data.py. -/
structure ContentItem where
  original_arg : Str
  file_path : Str
  ranges : List LineRange
  content : Option Str := none

/-- The range-checking loop of ContentItem.validate, over the already
normalized line count. -/
def validateRanges (maxLines : Nat) : List LineRange → Except PyErr Bool
  | [] => .ok true
  | r :: rest =>
    if (r.normalize maxLines).1 ≤ 0 ∨ (r.normalize maxLines).2 ≤ 0 ∨
        (r.normalize maxLines).1 > (maxLines : Int) ∨
        (r.normalize maxLines).2 > (maxLines : Int) then
      .error (.valueError (strOf "Line reference out of range: " ++ r.to_string ++
        strOf " (file has " ++ natToStr maxLines ++ strOf " lines)"))
    else if (r.normalize maxLines).1 > (r.normalize maxLines).2 then
      .error (.valueError (strOf "Start line must be less than or equal to end line: " ++
        r.to_string))
    else validateRanges maxLines rest

/-- ContentItem.validate: check existence, readability, not-a-directory,
then check every range in order against the file's line count. -/
def ContentItem.validate (fs : FS) (item : ContentItem) : Except PyErr Bool :=
  if !(fs.exists item.file_path) then
    .error (.fileNotFound (strOf "File not found: " ++ item.file_path))
  else if !(fs.readable item.file_path) then
    .error (.permissionError (strOf "File is not readable: " ++ item.file_path))
  else if fs.isDir item.file_path then
    .error (.isADirectoryError (strOf "Path is a directory, not a file: " ++ item.file_path))
  else
    match fs.lookupFile item.file_path with
    | some c => validateRanges (splitlinesKeep c).length item.ranges
    | none => .error (.fileNotFound (strOf "File not found: " ++ item.file_path))

/-- ContentItem.load_content: if a cached content exists return it, else
read all lines, slice each range (after normalizing its sentinel) with
Python list-slicing semantics, concatenate the slices in range-list order,
and strip the trailing newlines with rstrip. -/
def ContentItem.load_content (fs : FS) (item : ContentItem) : Except PyErr Str :=
  match item.content with
  | some c => .ok c
  | none =>
    match pyOpenRead fs item.file_path with
    | .error e => .error e
    | .ok c =>
      .ok (rstripNl (item.ranges.flatMap (fun r =>
        pySlice (splitlinesKeep c)
          ((r.normalize (splitlinesKeep c).length).1 - 1)
          (r.normalize (splitlinesKeep c).length).2)).flatten)

/-- ContentItem.get_content: return the cache if populated, else load. -/
def ContentItem.get_content (fs : FS) (item : ContentItem) : Except PyErr Str :=
  match item.content with
  | some c => .ok c
  | none => item.load_content fs

theorem parseSegment_le {p : Str} {r : Int × Int} (h : parseSegment p = .ok r) :
    r.1 ≤ r.2 := by
  unfold parseSegment at h
  split at h
  · split at h
    · split at h
      · split at h
        · split at h
          · exact absurd h (by simp)
          · split at h
            · exact absurd h (by simp)
            · rename_i st en hpos hlt
              cases h
              omega
        · exact absurd h (by simp)
      · exact absurd h (by simp)
    · split at h
      · split at h
        · exact absurd h (by simp)
        · cases h
          exact le_refl _
      · exact absurd h (by simp)
  · exact absurd h (by simp)

theorem parseSegments_ok_get {ps : List Str} {l : List (Int × Int)}
    (h : parseSegments ps = .ok l) (i : Nat) :
    l.get? i = (ps.get? i).bind (fun p => (parseSegment p).toOption) := by
  induction ps generalizing l i with
  | nil =>
    cases h
    simp
  | cons p ps ih =>
    unfold parseSegments at h
    cases hp : parseSegment p with
    | error e => rw [hp] at h; exact absurd h (by simp)
    | ok r =>
      rw [hp] at h
      cases hps : parseSegments ps with
      | error e => rw [hps] at h; exact absurd h (by simp)
      | ok rest =>
        rw [hps] at h
        cases h
        cases i with
        | zero => simp [hp, Except.toOption]
        | succ j => simpa using ih hps j

theorem parseSegments_ok_le {ps : List Str} {l : List (Int × Int)}
    (h : parseSegments ps = .ok l) {r : Int × Int} (hr : r ∈ l) : r.1 ≤ r.2 := by
  induction ps generalizing l with
  | nil => cases h; simp at hr
  | cons p ps ih =>
    unfold parseSegments at h
    cases hp : parseSegment p with
    | error e => rw [hp] at h; exact absurd h (by simp)
    | ok r0 =>
      rw [hp] at h
      cases hps : parseSegments ps with
      | error e => rw [hps] at h; exact absurd h (by simp)
      | ok rest =>
        rw [hps] at h
        cases h
        rcases List.mem_cons.mp hr with h1 | h2
        · subst h1; exact parseSegment_le hp
        · exact ih hps h2

/-- Claim C6: parsing the selector L5,L10-15,L20 returns exactly the list
[(5,5),(10,15),(20,20)] in that order; and in general, for every selector
that parses successfully, the i-th resulting range is exactly the parse of
the i-th comma-separated segment, so the ranges preserve the input order of
the segments and are neither sorted nor de-duplicated. -/
theorem claim_C6_parse_preserves_segment_order :
    parseLineReference (strOf "L5,L10-15,L20") = .ok [(5, 5), (10, 15), (20, 20)] ∧
    ∀ lineRef l, parseLineReference lineRef = .ok l →
      ∀ i : Nat, l.get? i =
        ((splitOnChar ',' lineRef).get? i).bind (fun p => (parseSegment p).toOption) := by
  refine ⟨by rfl, fun lineRef l h i => ?_⟩
  unfold parseLineReference at h
  split at h
  · exact absurd h (by simp)
  · exact parseSegments_ok_get h i

/-- Witness for claim C6: the general order-preservation statement applied
to the selector L5,L10-15,L20 at index 1. -/
theorem claim_C6_parse_preserves_segment_order_witness :
    ([(5, 5), (10, 15), (20, 20)] : List (Int × Int)).get? 1 =
      ((splitOnChar ',' (strOf "L5,L10-15,L20")).get? 1).bind
        (fun p => (parseSegment p).toOption) :=
  claim_C6_parse_preserves_segment_order.2 (strOf "L5,L10-15,L20")
    [(5, 5), (10, 15), (20, 20)] (by rfl) 1

/-- Claim C7: the selector L5-3 (end before start) is rejected with the
invalid-selector error, and in general a successful parse never returns a
range whose end is smaller than its start, so bounds are never silently
swapped. -/
theorem claim_C7_inverted_range_rejected :
    parseLineReference (strOf "L5-3") =
      .error (strOf "Start line must be less than or equal to end line: L5-3") ∧
    ∀ lineRef l, parseLineReference lineRef = .ok l → ∀ r ∈ l, r.1 ≤ r.2 := by
  refine ⟨by rfl, fun lineRef l h r hr => ?_⟩
  unfold parseLineReference at h
  split at h
  · exact absurd h (by simp)
  · exact parseSegments_ok_le h hr

/-- Witness for claim C7: the no-swap invariant applied to the successfully
parsed selector L10-20. -/
theorem claim_C7_inverted_range_rejected_witness :
    parseLineReference (strOf "L10-20") = .ok [((10 : Int), (20 : Int))] ∧
      ((10 : Int), (20 : Int)).1 ≤ ((10 : Int), (20 : Int)).2 :=
  ⟨by rfl, claim_C7_inverted_range_rejected.2 (strOf "L10-20") [(10, 20)] (by rfl)
    (10, 20) (by simp)⟩

/-!
## Claims C2, C8, C10: ContentItem.validate and get_content
-/

/-- Spec-side reading for claim C2: the selected line span of one range, in
plain take-and-drop form (lines start through normalized end, 1-indexed
inclusive), concatenated over the ranges in range-list order. -/
def selectedSpans (c : Str) (ranges : List LineRange) : Str :=
  (ranges.flatMap (fun r =>
    ((splitlinesKeep c).take (r.normalize (splitlinesKeep c).length).2.toNat).drop
      ((r.normalize (splitlinesKeep c).length).1.toNat - 1))).flatten

/-- Spec-side reading for claim C2: a SINGLE trailing newline stripped from
the final result, as the claim words it. -/
def singleStripSpec (s : Str) : Str :=
  if s.getLast? = some '\n' then s.dropLast else s

/-- A normalized range is in bounds for a file of n lines. -/
def rangeInBounds (n : Nat) (r : LineRange) : Prop :=
  1 ≤ (r.normalize n).1 ∧ 1 ≤ (r.normalize n).2 ∧
    (r.normalize n).1 ≤ (n : Int) ∧ (r.normalize n).2 ≤ (n : Int)

/-- A normalized range trips the out-of-range check of validate. -/
def rangeOutOfBounds (n : Nat) (r : LineRange) : Prop :=
  (r.normalize n).1 ≤ 0 ∨ (r.normalize n).2 ≤ 0 ∨
    (r.normalize n).1 > (n : Int) ∨ (r.normalize n).2 > (n : Int)

/-- The out-of-range message validate builds for range r over an n-line
file. -/
def oobMsg (r : LineRange) (n : Nat) : Str :=
  strOf "Line reference out of range: " ++ r.to_string ++
    strOf " (file has " ++ natToStr n ++ strOf " lines)"

theorem validateRanges_ok_bounds {n : Nat} {rs : List LineRange}
    (h : validateRanges n rs = .ok true) :
    ∀ r ∈ rs, rangeInBounds n r ∧ (r.normalize n).1 ≤ (r.normalize n).2 := by
  induction rs with
  | nil => intro r hr; simp at hr
  | cons r0 rest ih =>
    intro r hr
    unfold validateRanges at h
    split at h
    · exact absurd h (by simp)
    · split at h
      · exact absurd h (by simp)
      · rcases List.mem_cons.mp hr with h1 | h2
        · subst h1
          rename_i hoob hlt
          refine ⟨⟨?_, ?_, ?_, ?_⟩, ?_⟩ <;> omega
        · exact ih h r h2

theorem pySlice_eq_take_drop {α : Type} (l : List α) (a b : Int)
    (ha1 : 1 ≤ a) (ha2 : a ≤ (l.length : Int)) (hb1 : 1 ≤ b)
    (hb2 : b ≤ (l.length : Int)) :
    pySlice l (a - 1) b = (l.take b.toNat).drop (a.toNat - 1) := by
  unfold pySlice pySliceIdx
  rw [if_neg (by omega : ¬ a - 1 < 0), if_neg (by omega : ¬ b < 0)]
  have h1 : (min (a - 1) ((l.length : Nat) : Int)).toNat = a.toNat - 1 := by
    rw [min_eq_left (by omega)]; omega
  have h2 : (min b ((l.length : Nat) : Int)).toNat = b.toNat := by
    rw [min_eq_left (by exact_mod_cast hb2)]
  rw [h1, h2]

theorem flatMap_congr_mem {α β : Type} {l : List α} {f g : α → List β}
    (h : ∀ a ∈ l, f a = g a) : l.flatMap f = l.flatMap g := by
  induction l with
  | nil => rfl
  | cons a rest ih =>
    simp only [List.flatMap_cons]
    rw [h a (by simp), ih (fun x hx => h x (List.mem_cons_of_mem _ hx))]

theorem validate_eq_validateRanges {fs : FS} {item : ContentItem} {c : Str}
    (hc : fs.lookupFile item.file_path = some c)
    (hrd : fs.readable item.file_path = true)
    (hdir : fs.isDir item.file_path = false) :
    item.validate fs = validateRanges (splitlinesKeep c).length item.ranges := by
  unfold ContentItem.validate
  have hex : fs.exists item.file_path = true := by
    simp [FS.exists, FS.isFile, hc]
  rw [hex, hrd, hdir, hc]
  simp

theorem validate_ok_facts {fs : FS} {item : ContentItem}
    (hv : item.validate fs = .ok true) :
    fs.readable item.file_path = true ∧ fs.isDir item.file_path = false ∧
      ∃ c, fs.lookupFile item.file_path = some c ∧
        validateRanges (splitlinesKeep c).length item.ranges = .ok true := by
  unfold ContentItem.validate at hv
  cases hex : fs.exists item.file_path with
  | false => rw [hex] at hv; exact absurd hv (by simp)
  | true =>
    rw [hex] at hv
    cases hrd : fs.readable item.file_path with
    | false => rw [hrd] at hv; exact absurd hv (by simp)
    | true =>
      rw [hrd] at hv
      cases hdir : fs.isDir item.file_path with
      | true => rw [hdir] at hv; exact absurd hv (by simp)
      | false =>
        rw [hdir] at hv
        simp only [Bool.not_true, Bool.false_eq_true, if_false, if_true,
          Bool.true_eq_false, ite_false, ite_true] at hv
        cases hc : fs.lookupFile item.file_path with
        | none =>
          rw [hc] at hv
          exact absurd hv (by simp)
        | some c =>
          rw [hc] at hv
          exact ⟨rfl, rfl, c, rfl, hv⟩

/-- Claim C2 (amended): for every validated, not-yet-cached ContentItem the
first get_content call returns the concatenation of the selected line spans
in range-list order with ALL trailing newline characters stripped (Python
rstrip), of which the claimed single-newline strip is a special case only
when the content does not end in consecutive newlines. -/
theorem claim_C2_amended_get_content {fs : FS} {item : ContentItem} {c : Str}
    (hnone : item.content = none)
    (hc : fs.lookupFile item.file_path = some c)
    (hv : item.validate fs = .ok true) :
    item.get_content fs = .ok (rstripNl (selectedSpans c item.ranges)) := by
  obtain ⟨hrd, hdir, c2, hc2, hranges⟩ := validate_ok_facts hv
  rw [hc] at hc2
  cases hc2
  have hopen : pyOpenRead fs item.file_path = .ok c := by
    simp [pyOpenRead, hc, hrd]
  unfold ContentItem.get_content ContentItem.load_content
  rw [hnone, hopen]
  simp only [Except.ok.injEq]
  unfold selectedSpans
  refine congrArg rstripNl (congrArg List.flatten (flatMap_congr_mem ?_))
  intro r hr
  obtain ⟨⟨hb1, hb2, hb3, hb4⟩, hle⟩ := validateRanges_ok_bounds hranges r hr
  exact pySlice_eq_take_drop _ _ _ hb1 hb3 hb2 hb4

/-- File system for the claim C2 witness: the 5-line file of the spec
scenario. -/
def fsC2w : FS := ⟨[(strOf "f.txt", strOf "L1\nL2\nL3\nL4\nL5\n")], [], []⟩

/-- ContentItem for the claim C2 witness: ranges [(2,4)]. -/
def itemC2w : ContentItem := ⟨strOf "f.txt", strOf "f.txt", [⟨2, .num 4⟩], none⟩

/-- Witness for claim C2: the amended statement applied to the spec scenario
ranges [(2,4)] over the 5-line file, which yields exactly L2, L3, L4. -/
theorem claim_C2_amended_get_content_witness :
    itemC2w.get_content fsC2w = .ok (rstripNl (selectedSpans
      (strOf "L1\nL2\nL3\nL4\nL5\n") itemC2w.ranges)) ∧
    rstripNl (selectedSpans (strOf "L1\nL2\nL3\nL4\nL5\n") itemC2w.ranges) =
      strOf "L2\nL3\nL4" :=
  ⟨claim_C2_amended_get_content (by rfl) (by rfl) (by rfl), by rfl⟩

/-- File system for the claim C2 counterexample: a validated 3-line file
whose selected span ends in two blank lines. -/
def fsC2c : FS := ⟨[(strOf "f.txt", strOf "x\n\n\n")], [], []⟩

/-- ContentItem for the claim C2 counterexample. -/
def itemC2c : ContentItem := ⟨strOf "f.txt", strOf "f.txt", [⟨1, .num 3⟩], none⟩

/-- Counterexample to claim C2: on the validated item selecting lines 1-3 of
the 3-line file with content x, blank, blank, get_content returns just x,
while stripping a SINGLE trailing newline from the concatenated span (as the
claim states) would return x followed by two newlines; so the claim as
stated is false. -/
theorem claim_C2_counterexample :
    itemC2c.validate fsC2c = .ok true ∧
    itemC2c.get_content fsC2c = .ok (strOf "x") ∧
    singleStripSpec (selectedSpans (strOf "x\n\n\n") itemC2c.ranges) =
      strOf "x\n\n" ∧
    strOf "x" ≠ strOf "x\n\n" :=
  ⟨by rfl, by rfl, by rfl, by decide⟩

/-- Claim-side checker for C8: some range of the item is out of range for an
n-line file. -/
def hasOutOfRangeB (n : Nat) (rs : List LineRange) : Bool :=
  rs.any fun r =>
    decide ((r.normalize n).1 ≤ 0) || decide ((r.normalize n).2 ≤ 0) ||
      decide ((r.normalize n).1 > (n : Int)) || decide ((r.normalize n).2 > (n : Int))

theorem validateRanges_error_at {n : Nat} {pre rest : List LineRange} {r : LineRange}
    (hpre : ∀ p ∈ pre, rangeInBounds n p ∧ (p.normalize n).1 ≤ (p.normalize n).2)
    (hoob : rangeOutOfBounds n r) :
    validateRanges n (pre ++ r :: rest) = .error (.valueError (oobMsg r n)) := by
  unfold rangeOutOfBounds at hoob
  induction pre with
  | nil =>
    rw [List.nil_append]
    unfold validateRanges
    rw [if_pos hoob]
    rfl
  | cons p ps ih =>
    have hp := hpre p (by simp)
    obtain ⟨⟨h1, h2, h3, h4⟩, h5⟩ := hp
    show validateRanges n (p :: (ps ++ r :: rest)) = _
    unfold validateRanges
    rw [if_neg (by omega), if_neg (by omega)]
    exact ih (fun q hq => hpre q (List.mem_cons_of_mem _ hq))

/-- Claim C8 (amended): for a ContentItem over a readable non-directory
file, if the FIRST invalid range in list order is out of range (earlier
ranges are in bounds and not inverted), then validate raises the
out-of-range ValueError, whose message contains the offending selector and
the file's actual line count.  (The unamended claim fails when an earlier
in-bounds but inverted range raises the start-after-end error first.) -/
theorem claim_C8_amended_out_of_range_error {fs : FS} {item : ContentItem} {c : Str}
    {pre rest : List LineRange} {r : LineRange} {n : Nat}
    (hc : fs.lookupFile item.file_path = some c)
    (hrd : fs.readable item.file_path = true)
    (hdir : fs.isDir item.file_path = false)
    (hn : n = (splitlinesKeep c).length)
    (hranges : item.ranges = pre ++ r :: rest)
    (hpre : ∀ p ∈ pre, rangeInBounds n p ∧ (p.normalize n).1 ≤ (p.normalize n).2)
    (hoob : rangeOutOfBounds n r) :
    item.validate fs = .error (.valueError (oobMsg r n)) ∧
      r.to_string <:+: oobMsg r n ∧ natToStr n <:+: oobMsg r n := by
  refine ⟨?_, ?_, ?_⟩
  · rw [validate_eq_validateRanges hc hrd hdir, hranges, ← hn]
    exact validateRanges_error_at hpre hoob
  · exact ⟨strOf "Line reference out of range: ",
      strOf " (file has " ++ natToStr n ++ strOf " lines)",
      by simp [oobMsg, List.append_assoc]⟩
  · exact ⟨strOf "Line reference out of range: " ++ r.to_string ++ strOf " (file has ",
      strOf " lines)", by simp [oobMsg, List.append_assoc]⟩

/-- File system for the claim C8 witness: the 3-line file of the spec
scenario. -/
def fsC8w : FS := ⟨[(strOf "h.txt", strOf "a\nb\nc\n")], [], []⟩

/-- ContentItem for the claim C8 witness: selector L10 on a 3-line file. -/
def itemC8w : ContentItem := ⟨strOf "h.txt", strOf "h.txt", [⟨10, .num 10⟩], none⟩

/-- Witness for claim C8: the amended statement applied to selector L10 on a
3-line file; the raised message is exactly the out-of-range text mentioning
both L10 and 3. -/
theorem claim_C8_amended_out_of_range_error_witness :
    itemC8w.validate fsC8w = .error (.valueError (oobMsg ⟨10, .num 10⟩ 3)) ∧
      LineRange.to_string ⟨10, .num 10⟩ <:+: oobMsg ⟨10, .num 10⟩ 3 ∧
      natToStr 3 <:+: oobMsg ⟨10, .num 10⟩ 3 ∧
      oobMsg ⟨10, .num 10⟩ 3 = strOf "Line reference out of range: L10 (file has 3 lines)" := by
  have h := @claim_C8_amended_out_of_range_error fsC8w itemC8w (strOf "a\nb\nc\n")
    [] [] ⟨10, .num 10⟩ 3
    (by rfl) (by rfl) (by rfl) (by rfl) (by rfl) (by simp)
    (by unfold rangeOutOfBounds LineRange.normalize; simp)
  exact ⟨h.1, h.2.1, h.2.2, by rfl⟩

/-- File system for the claim C8 counterexample. -/
def fsC8c : FS := ⟨[(strOf "g.txt", strOf "a\nb\nc\n")], [], []⟩

/-- ContentItem for the claim C8 counterexample: an in-bounds inverted range
followed by an out-of-range one. -/
def itemC8c : ContentItem :=
  ⟨strOf "g.txt", strOf "g.txt", [⟨3, .num 2⟩, ⟨10, .num 10⟩], none⟩

/-- Counterexample to claim C8: the item has an out-of-range range (L10 on a
3-line file), yet validate raises the start-after-end ValueError for the
earlier in-bounds inverted range L3-2, not the out-of-range error; so the
claim as stated is false. -/
theorem claim_C8_counterexample :
    hasOutOfRangeB 3 itemC8c.ranges = true ∧
    itemC8c.validate fsC8c =
      .error (.valueError (strOf "Start line must be less than or equal to end line: L3-2")) ∧
    (strOf "Line reference out of range").isPrefixOf
      (strOf "Start line must be less than or equal to end line: L3-2") = false :=
  ⟨by rfl, by rfl, by rfl⟩

/-- Claim C10 (amended): on a readable, non-directory, zero-line (empty)
file, validate raises the out-of-range ValueError for every nonempty ranges
list, in particular for the default whole-file range (1, sentinel); an
empty file can therefore pass validation only in the degenerate case of an
empty ranges list. -/
theorem claim_C10_amended_empty_file {fs : FS} {item : ContentItem} {c : Str}
    {r : LineRange} {rest : List LineRange}
    (hc : fs.lookupFile item.file_path = some c)
    (hrd : fs.readable item.file_path = true)
    (hdir : fs.isDir item.file_path = false)
    (hzero : splitlinesKeep c = [])
    (hranges : item.ranges = r :: rest) :
    item.validate fs = .error (.valueError (oobMsg r 0)) := by
  rw [validate_eq_validateRanges hc hrd hdir, hranges, hzero]
  show validateRanges 0 (r :: rest) = _
  unfold validateRanges
  rw [if_pos (by omega)]
  rfl

/-- File system for the claim C10 witness: an existing empty file. -/
def fsC10w : FS := ⟨[(strOf "e.txt", strOf "")], [], []⟩

/-- ContentItem for the claim C10 witness: the default whole-file range. -/
def itemC10w : ContentItem := ⟨strOf "e.txt", strOf "e.txt", [⟨1, .X⟩], none⟩

/-- Witness for claim C10: an empty file with the default range (1, sentinel)
fails validation with the out-of-range error naming 0 lines. -/
theorem claim_C10_amended_empty_file_witness :
    itemC10w.validate fsC10w = .error (.valueError (oobMsg ⟨1, .X⟩ 0)) ∧
      oobMsg ⟨1, .X⟩ 0 = strOf "Line reference out of range: L1-X (file has 0 lines)" :=
  ⟨claim_C10_amended_empty_file (by rfl) (by rfl) (by rfl) (by rfl) (by rfl), by rfl⟩

/-!
## Formatting engine (src/nanodoc/nanodoc.py, lines 446-569)
-/

/-- The --style values (filename, path, nice); None is Option.none. -/
inductive HeaderStyle where
  | filename
  | path
  | nice
  deriving DecidableEq

/-- The --sequence values (numerical, letter, roman); None is Option.none. -/
inductive SeqStyle where
  | numerical
  | letter
  | roman
  deriving DecidableEq

/-- The line_number_mode values (file, all); None is Option.none. -/
inductive NumMode where
  | file
  | all
  deriving DecidableEq

/-- os.path.basename: the part after the last path separator. -/
def basename (p : Str) : Str := (splitOnChar '/' p).getLastD []

/-- os.path.splitext for a name without path separators: split at the last
dot, unless every character before that dot is itself a dot (so that purely
dotted leading segments such as .bashrc keep their dot). -/
def pySplitext (s : Str) : Str × Str :=
  if (s.reverse.takeWhile (fun c => c ≠ '.')).length = s.length then (s, [])
  else if (s.take (s.length - (s.reverse.takeWhile (fun c => c ≠ '.')).length - 1)).all
      (fun c => c = '.') then
    (s, [])
  else
    (s.take (s.length - (s.reverse.takeWhile (fun c => c ≠ '.')).length - 1),
     s.drop (s.length - (s.reverse.takeWhile (fun c => c ≠ '.')).length - 1))

/-- re.sub of the character class dash-underscore by a space. -/
def replaceDashUnderscore (s : Str) : Str :=
  s.map (fun c => if c = '-' ∨ c = '_' then ' ' else c)

/-- str.title (ASCII model): the first alphabetic character of each
alphabetic run is uppercased, the rest lowercased, other characters are
kept and end the run. -/
def pyTitleAux (prevAlpha : Bool) : Str → Str
  | [] => []
  | c :: rest =>
    if c.isAlpha then
      (if prevAlpha then c.toLower else c.toUpper) :: pyTitleAux true rest
    else c :: pyTitleAux false rest

/-- str.title (ASCII model). -/
def pyTitle (s : Str) : Str := pyTitleAux false s

/-- apply_style_to_filename: with no style, the filename style, or a falsy
original path the filename is returned unchanged; the path style returns
the original path; the nice style strips the extension, turns dashes and
underscores into spaces, title-cases, and appends the parenthesized
filename. -/
def apply_style_to_filename (filename : Str) (style : Option HeaderStyle)
    (originalPath : Option Str) : Str :=
  match style, originalPath with
  | none, _ => filename
  | some .filename, _ => filename
  | _, none => filename
  | some st, some p =>
    if p = [] then filename
    else
      match st with
      | .filename => filename
      | .path => p
      | .nice =>
        pyTitle (replaceDashUnderscore (pySplitext filename).1) ++
          strOf " (" ++ filename ++ strOf ")"

/-- The value/symbol table of to_roman. -/
def romanPairs : List (Nat × Str) :=
  [(1000, strOf "M"), (900, strOf "CM"), (500, strOf "D"), (400, strOf "CD"),
   (100, strOf "C"), (90, strOf "XC"), (50, strOf "L"), (40, strOf "XL"),
   (10, strOf "X"), (9, strOf "IX"), (5, strOf "V"), (4, strOf "IV"),
   (1, strOf "I")]

/-- The greedy loop of to_roman: for each table entry emit num div val
copies of the symbol and continue with the remainder. -/
def toRomanAux : List (Nat × Str) → Nat → Str
  | [], _ => []
  | (v, s) :: rest, n => (List.replicate (n / v) s).flatten ++ toRomanAux rest (n % v)

/-- str.lower for the roman numeral result. -/
def lowerStr (s : Str) : Str := s.map Char.toLower

/-- to_roman followed by the .lower() call of the source; the source raises
for non-positive input, and every caller passes a positive position. -/
def to_roman (n : Nat) : Str := lowerStr (toRomanAux romanPairs n)

/-- format_pos: the sequence prefix for a zero-based position. -/
def format_pos (style : Option SeqStyle) (position : Nat) : Str :=
  match style with
  | none => []
  | some .numerical => natToStr (position + 1) ++ strOf ". "
  | some .letter => Char.ofNat (96 + ((position + 1 - 1) % 26) + 1) :: strOf ". "
  | some .roman => to_roman (position + 1) ++ strOf ". "

/-- apply_sequence_to_text: prefix the formatted position (prepending the
empty prefix is the same as returning the text unchanged). -/
def apply_sequence_to_text (text : Str) (sequence : Option SeqStyle)
    (seqIndex : Nat) : Str :=
  format_pos sequence seqIndex ++ text

/-- create_header: when a truthy original path is given, style its basename,
then apply the sequence prefix.  The unused border-character argument of the
source is omitted. -/
def create_header (text : Str) (sequence : Option SeqStyle) (seqIndex : Nat)
    (style : Option HeaderStyle) (originalPath : Option Str) : Str :=
  match originalPath with
  | some p =>
    if p = [] then apply_sequence_to_text text sequence seqIndex
    else apply_sequence_to_text (apply_style_to_filename (basename p) style (some p))
      sequence seqIndex
  | none => apply_sequence_to_text text sequence seqIndex

/-!
## Rendering (src/nanodoc/nanodoc.py, lines 613-793)
-/

/-- Python format spec 4d: the decimal digits right-justified with spaces to
width four. -/
def fmt4d (n : Nat) : Str :=
  List.replicate (4 - (natToStr n).length) ' ' ++ natToStr n

/-- The line-number string prepended to one content line by process_file:
global counter plus index in all mode, local index in file mode, nothing
otherwise. -/
def lineNumTag (mode : Option NumMode) (counter i : Nat) : Str :=
  match mode with
  | some .all => fmt4d (counter + i + 1) ++ strOf ": "
  | some .file => fmt4d (i + 1) ++ strOf ": "
  | none => []

/-- The enumerate loop of process_file: prefix each kept line with its line
number string, starting at index i. -/
def numberedLines (mode : Option NumMode) (counter : Nat) : Nat → List Str → List Str
  | _, [] => []
  | i, l :: rest => (lineNumTag mode counter i ++ l) :: numberedLines mode counter (i + 1) rest

/-- The inline stand-in text process_file produces for a missing file. -/
def standIn (p : Str) : Str := strOf "Error: File not found: " ++ p ++ strOf "\n"

/-- process_file: read the whole file (a FileNotFoundError becomes the
inline stand-in with zero reported lines, other errors propagate), then emit
the optional header (blank line, styled and sequenced header, two blank
lines) followed by the content lines with optional line numbers, and report
the number of content lines. -/
def process_file (fs : FS) (filePath : Str) (mode : Option NumMode)
    (lineCounter : Nat) (showHeader : Bool) (sequence : Option SeqStyle)
    (seqIndex : Nat) (style : Option HeaderStyle) : Except PyErr (Str × Nat) :=
  match pyOpenRead fs filePath with
  | .error (.fileNotFound _) => .ok (standIn filePath, 0)
  | .error e => .error e
  | .ok content =>
    .ok ((if showHeader then
        strOf "\n" ++
          create_header (basename filePath) sequence seqIndex style (some filePath) ++
          strOf "\n\n"
      else []) ++ (numberedLines mode lineCounter 0 (splitlinesKeep content)).flatten,
      (splitlinesKeep content).length)

/-- Insertion-ordered Python dict assignment d[k] = v: overwrite in place or
append at the end. -/
def dictSet {β : Type} : List (Str × β) → Str → β → List (Str × β)
  | [], k, v => [(k, v)]
  | (k0, v0) :: rest, k, v =>
    if k0 = k then (k0, v) :: rest else (k0, v0) :: dictSet rest k v

/-- Python dict lookup d[k] (as an Option; every lookup the source performs
is of a present key). -/
def dictGet? {β : Type} (d : List (Str × β)) (k : Str) : Option β :=
  (d.find? (fun q => decide (q.1 = k))).map (fun q => q.2)

/-- The first loop of generate_table_of_contents: record current_line + 3
for each source, then advance current_line by the file's line count plus 3.
A read failure propagates as in the source, where get_file_content is
called outside any try block. -/
def tocNumbersAux (fs : FS) : List Str → List (Str × Nat) → Nat →
    Except PyErr (List (Str × Nat))
  | [], acc, _ => .ok acc
  | src :: rest, acc, current =>
    match pyOpenRead fs src with
    | .error e => .error e
    | .ok content =>
      tocNumbersAux fs rest (dictSet acc src (current + 3))
        (current + (splitlines content).length + 3)

/-- The formatted_filenames dict of generate_table_of_contents. -/
def tocFormatted (sources : List Str) (style : Option HeaderStyle) :
    List (Str × Str) :=
  sources.foldl
    (fun d src => dictSet d src (apply_style_to_filename (basename src) style (some src)))
    []

/-- max of the formatted name lengths (the source applies max() to the dict
values; the caller guards against the empty dict). -/
def tocMaxLen (fmtd : List (Str × Str)) : Nat :=
  (fmtd.map (fun q => q.2.length)).foldl Nat.max 0

/-- One TOC entry line: formatted name, dot leader aligning the line
numbers, and the projected line number. -/
def tocEntryLine (fmtd : List (Str × Str)) (nums : List (Str × Nat))
    (maxLen : Nat) (src : Str) : Str :=
  ((dictGet? fmtd src).getD []) ++ strOf " " ++
    List.replicate (maxLen - ((dictGet? fmtd src).getD []).length + 5) '.' ++
    strOf " " ++ natToStr ((dictGet? nums src).getD 0) ++ strOf "\n"

/-- generate_table_of_contents: compute the projected line numbers starting
after the reserved 2 + entry-count + 1 TOC lines, then emit the TOC text
(leading blank line, TOC header, blank line, one entry line per source,
trailing blank line).  The max() call on an empty dict raises ValueError as
in Python. -/
def generate_table_of_contents (fs : FS) (sources : List Str)
    (style : Option HeaderStyle) : Except PyErr (Str × List (Str × Nat)) :=
  match tocNumbersAux fs sources [] (2 + sources.length + 1) with
  | .error e => .error e
  | .ok nums =>
    if tocFormatted sources style = [] then
      .error (.valueError (strOf "max() arg is an empty sequence"))
    else
      .ok (strOf "\n" ++ create_header (strOf "TOC") none 0 style none ++ strOf "\n\n" ++
        (sources.map (tocEntryLine (tocFormatted sources style) nums
          (tocMaxLen (tocFormatted sources style)))).flatten ++ strOf "\n",
        nums)

/-- The per-file loop of process_files: reset the counter in file mode,
process the file, append its output, and advance the counter by the
reported line count. -/
def processFilesAux (fs : FS) (mode : Option NumMode) (showHeader : Bool)
    (sequence : Option SeqStyle) (style : Option HeaderStyle) :
    List Str → Nat → Nat → Except PyErr Str
  | [], _, _ => .ok []
  | src :: rest, i, lineCounter =>
    match process_file fs src mode (if mode = some NumMode.file then 0 else lineCounter)
        showHeader sequence i style with
    | .error e => .error e
    | .ok (out, numLines) =>
      match processFilesAux fs mode showHeader sequence style rest (i + 1)
          ((if mode = some NumMode.file then 0 else lineCounter) + numLines) with
      | .error e => .error e
      | .ok restOut => .ok (out ++ restOut)

/-- process_files: generate the TOC first when requested, then process each
file in order, and prepend the TOC text to the concatenated body. -/
def process_files (fs : FS) (sources : List Str) (mode : Option NumMode)
    (generateToc : Bool) (showHeader : Bool) (sequence : Option SeqStyle)
    (style : Option HeaderStyle) : Except PyErr Str :=
  if generateToc then
    match generate_table_of_contents fs sources style with
    | .error e => .error e
    | .ok (toc, _) =>
      match processFilesAux fs mode showHeader sequence style sources 0 0 with
      | .error e => .error e
      | .ok body => .ok (toc ++ body)
  else
    match processFilesAux fs mode showHeader sequence style sources 0 0 with
    | .error e => .error e
    | .ok body => .ok body

/-!
## is_bundle_file (src/nanodoc/nanodoc.py, lines 395-429)
-/

/-- Does the line start with the comment marker. -/
def startsWithHash (l : Str) : Bool :=
  match l with
  | '#' :: _ => true
  | _ => false

/-- The readline loop of is_bundle_file over the raw lines it can reach:
skip lines that strip to nothing or to a comment, otherwise answer whether
the stripped line names an existing file. -/
def isBundleLoop (fs : FS) : List Str → Bool
  | [] => false
  | raw :: rest =>
    if pyStrip raw = [] then isBundleLoop fs rest
    else if startsWithHash (pyStrip raw) then isBundleLoop fs rest
    else fs.isFile (pyStrip raw)

/-- is_bundle_file: any open error yields False; otherwise run the loop over
the first five raw lines (the source calls readline five times, and at end
of file readline returns the empty string, which the loop skips). -/
def is_bundle_file (fs : FS) (p : Str) : Bool :=
  match pyOpenRead fs p with
  | .error _ => false
  | .ok c => isBundleLoop fs ((splitlinesKeep c).take 5)

/-- A line the bundle sniff skips: blank after stripping, or a comment. -/
def lineSkippable (l : Str) : Bool := l.isEmpty || startsWithHash l

/-- Spec-side reading for claim C5: the first non-empty, non-comment line of
the file (wherever it is) decides bundle-ness, by being the path of an
existing file. -/
def specC5Claim (fs : FS) (p : Str) : Bool :=
  match pyOpenRead fs p with
  | .error _ => false
  | .ok c =>
    match ((splitlinesKeep c).map pyStrip).dropWhile lineSkippable with
    | [] => false
    | l :: _ => fs.isFile l

/-- Spec-side reading for the AMENDED claim C5: only the first five raw
lines are read; among them blank and comment lines are skipped, and the
first remaining line (if any) decides bundle-ness. -/
def specC5Amended (fs : FS) (p : Str) : Bool :=
  match pyOpenRead fs p with
  | .error _ => false
  | .ok c =>
    match (((splitlinesKeep c).take 5).map pyStrip).dropWhile lineSkippable with
    | [] => false
    | l :: _ => fs.isFile l

theorem isBundleLoop_eq_dropWhile (fs : FS) (ls : List Str) :
    isBundleLoop fs ls =
      match (ls.map pyStrip).dropWhile lineSkippable with
      | [] => false
      | l :: _ => fs.isFile l := by
  induction ls with
  | nil => rfl
  | cons raw rest ih =>
    unfold isBundleLoop
    by_cases h1 : pyStrip raw = []
    · rw [if_pos h1, ih]
      have hsk : lineSkippable (pyStrip raw) = true := by
        simp [lineSkippable, h1]
      simp [List.dropWhile, hsk]
    · rw [if_neg h1]
      by_cases h2 : startsWithHash (pyStrip raw) = true
      · rw [if_pos h2, ih]
        have hsk : lineSkippable (pyStrip raw) = true := by
          simp [lineSkippable, h2]
        simp [List.dropWhile, hsk]
      · rw [if_neg h2]
        have hsk : lineSkippable (pyStrip raw) = false := by
          simp [lineSkippable, List.isEmpty_iff, h1]
          simpa using h2
        simp [List.dropWhile, hsk]

/-- Claim C5 (amended): bundle classification reads only the first FIVE RAW
lines of the file; among those five it skips blank and comment lines, and
classifies the file as a bundle exactly when the first remaining line names
an existing file.  In particular a file whose first non-comment line is
prose is ordinary even if later lines are valid paths, but a valid path
first appearing after five raw lines is NOT seen. -/
theorem claim_C5_amended_bundle_sniff (fs : FS) (p : Str) :
    is_bundle_file fs p = specC5Amended fs p := by
  unfold is_bundle_file specC5Amended
  cases pyOpenRead fs p with
  | error e => rfl
  | ok c => exact isBundleLoop_eq_dropWhile fs ((splitlinesKeep c).take 5)

/-- File system for the claim C5 counterexample: a manifest whose first five
raw lines are comments and whose sixth line names an existing file. -/
def fsC5c : FS :=
  ⟨[(strOf "bundle.txt", strOf "#a\n#b\n#c\n#d\n#e\nreal.txt\n"),
    (strOf "real.txt", strOf "x\n")], [], []⟩

/-- Counterexample to claim C5: the first non-empty, non-comment line of
bundle.txt is real.txt, the path of an existing file, so the claim
classifies it as a bundle; is_bundle_file returns False because it reads
only the first five raw lines, all comments. -/
theorem claim_C5_counterexample :
    is_bundle_file fsC5c (strOf "bundle.txt") = false ∧
    specC5Claim fsC5c (strOf "bundle.txt") = true :=
  ⟨by rfl, by rfl⟩

theorem processFilesAux_cons_ok {fs : FS} {mode : Option NumMode}
    {showHeader : Bool} {seq : Option SeqStyle} {style : Option HeaderStyle}
    {s : Str} {rest : List Str} {i counter : Nat} {outS out2 : Str} {n : Nat}
    (h1 : process_file fs s mode (if mode = some NumMode.file then 0 else counter)
      showHeader seq i style = .ok (outS, n))
    (h2 : processFilesAux fs mode showHeader seq style rest (i + 1)
      ((if mode = some NumMode.file then 0 else counter) + n) = .ok out2) :
    processFilesAux fs mode showHeader seq style (s :: rest) i counter =
      .ok (outS ++ out2) := by
  simp [processFilesAux, h1, h2]

theorem process_file_ok {fs : FS} {p c : Str} {mode : Option NumMode}
    {counter : Nat} {showHeader : Bool} {seq : Option SeqStyle} {i : Nat}
    {style : Option HeaderStyle} (hopen : pyOpenRead fs p = .ok c) :
    process_file fs p mode counter showHeader seq i style =
      .ok ((if showHeader then
          strOf "\n" ++ create_header (basename p) seq i style (some p) ++ strOf "\n\n"
        else []) ++ (numberedLines mode counter 0 (splitlinesKeep c)).flatten,
        (splitlinesKeep c).length) := by
  unfold process_file
  rw [hopen]

theorem process_file_missing {fs : FS} {p : Str} {mode : Option NumMode}
    {counter : Nat} {showHeader : Bool} {seq : Option SeqStyle} {i : Nat}
    {style : Option HeaderStyle} (hnone : fs.lookupFile p = none)
    (hdir : fs.isDir p = false) :
    process_file fs p mode counter showHeader seq i style = .ok (standIn p, 0) := by
  have hopen : pyOpenRead fs p = .error (.fileNotFound p) := by
    simp [pyOpenRead, hnone, hdir]
  unfold process_file
  rw [hopen]

theorem infix_append_of_infix {l t : Str} (A : Str) (h : l <:+: t) :
    l <:+: A ++ t := by
  obtain ⟨u, v, huv⟩ := h
  exact ⟨A ++ u, v, by rw [← huv]; simp [List.append_assoc]⟩

theorem processFilesAux_ok_of_no_hard_errors (fs : FS) (mode : Option NumMode)
    (showHeader : Bool) (seq : Option SeqStyle) (style : Option HeaderStyle) :
    ∀ (sources : List Str) (i counter : Nat),
      (∀ s ∈ sources, ((fs.lookupFile s).isSome ∧ fs.readable s = true) ∨
          (fs.lookupFile s = none ∧ fs.isDir s = false)) →
      ∃ out, processFilesAux fs mode showHeader seq style sources i counter = .ok out ∧
        ∀ s ∈ sources, fs.lookupFile s = none → standIn s <:+: out := by
  intro sources
  induction sources with
  | nil =>
    intro i counter hall
    exact ⟨[], rfl, fun s hs => absurd hs (by simp)⟩
  | cons s rest ih =>
    intro i counter hall
    rcases hall s (by simp) with ⟨hsome, hread⟩ | ⟨hnone, hdir⟩
    · obtain ⟨c, hc⟩ := Option.isSome_iff_exists.mp hsome
      have hopen : pyOpenRead fs s = .ok c := by simp [pyOpenRead, hc, hread]
      obtain ⟨out2, h2, hinf⟩ := ih (i + 1)
        ((if mode = some NumMode.file then 0 else counter) + (splitlinesKeep c).length)
        (fun q hq => hall q (List.mem_cons_of_mem _ hq))
      refine ⟨_ ++ out2, processFilesAux_cons_ok (process_file_ok hopen) h2, ?_⟩
      intro s0 hs0 hn0
      rcases List.mem_cons.mp hs0 with rfl | hs1
      · rw [hc] at hn0; exact absurd hn0 (by simp)
      · exact infix_append_of_infix _ (hinf s0 hs1 hn0)
    · obtain ⟨out2, h2, hinf⟩ := ih (i + 1)
        ((if mode = some NumMode.file then 0 else counter) + 0)
        (fun q hq => hall q (List.mem_cons_of_mem _ hq))
      refine ⟨standIn s ++ out2,
        processFilesAux_cons_ok (process_file_missing hnone hdir) h2, ?_⟩
      intro s0 hs0 hn0
      rcases List.mem_cons.mp hs0 with rfl | hs1
      · exact ⟨[], out2, by simp⟩
      · exact infix_append_of_infix _ (hinf s0 hs1 hn0)

/-- Claim C9 (amended): a file missing at render time yields the inline
stand-in Error-File-not-found text with a reported line count of zero, and
WHEN TOC GENERATION IS OFF the assembly of the remaining files continues
and every missing file's stand-in appears in the combined output.  (With
TOC generation enabled the claim fails: the TOC pre-pass re-reads every
file outside any handler, so a missing file aborts the whole run.) -/
theorem claim_C9_amended_missing_file_stand_in :
    (∀ (fs : FS) (p : Str) (mode : Option NumMode) (counter : Nat)
        (showHeader : Bool) (seq : Option SeqStyle) (i : Nat)
        (style : Option HeaderStyle),
      fs.lookupFile p = none → fs.isDir p = false →
      process_file fs p mode counter showHeader seq i style = .ok (standIn p, 0)) ∧
    (∀ (fs : FS) (sources : List Str) (mode : Option NumMode) (showHeader : Bool)
        (seq : Option SeqStyle) (style : Option HeaderStyle),
      (∀ s ∈ sources, ((fs.lookupFile s).isSome ∧ fs.readable s = true) ∨
          (fs.lookupFile s = none ∧ fs.isDir s = false)) →
      ∃ out, process_files fs sources mode false showHeader seq style = .ok out ∧
        ∀ s ∈ sources, fs.lookupFile s = none → standIn s <:+: out) := by
  constructor
  · intro fs p mode counter showHeader seq i style hnone hdir
    have hopen : pyOpenRead fs p = .error (.fileNotFound p) := by
      simp [pyOpenRead, hnone, hdir]
    unfold process_file
    rw [hopen]
  · intro fs sources mode showHeader seq style hall
    obtain ⟨out, hout, hinf⟩ :=
      processFilesAux_ok_of_no_hard_errors fs mode showHeader seq style sources 0 0 hall
    exact ⟨out, by unfold process_files; rw [if_neg (by simp), hout], hinf⟩

/-- File system for the claim C9 witness and counterexample inputs: one
existing readable file; gone.txt does not exist. -/
def fsC9 : FS := ⟨[(strOf "a.txt", strOf "hi\n")], [], []⟩

/-- Witness for claim C9: with TOC off, processing gone.txt yields the
stand-in, and the two-file run completes with the stand-in embedded in the
output. -/
theorem claim_C9_amended_missing_file_stand_in_witness :
    process_file fsC9 (strOf "gone.txt") none 0 true none 0 none =
      .ok (standIn (strOf "gone.txt"), 0) ∧
    ∃ out, process_files fsC9 [strOf "gone.txt", strOf "a.txt"] none false true none none =
        .ok out ∧
      ∀ s ∈ [strOf "gone.txt", strOf "a.txt"], fsC9.lookupFile s = none →
        standIn s <:+: out :=
  ⟨claim_C9_amended_missing_file_stand_in.1 fsC9 (strOf "gone.txt") none 0 true none 0 none
      (by rfl) (by rfl),
   claim_C9_amended_missing_file_stand_in.2 fsC9 [strOf "gone.txt", strOf "a.txt"]
      none true none none (by
        intro s hs
        rcases List.mem_cons.mp hs with rfl | hs1
        · exact Or.inr ⟨by rfl, by rfl⟩
        · rcases List.mem_cons.mp hs1 with rfl | hs2
          · exact Or.inl ⟨by rfl, by rfl⟩
          · exact absurd hs2 (by simp))⟩

/-- Counterexample to claim C9: with TOC generation enabled the TOC pre-pass
reads gone.txt outside any handler, so the whole run aborts with
FileNotFoundError instead of continuing with the inline stand-in; the claim
(which does not restrict the configuration) is therefore false. -/
theorem claim_C9_counterexample :
    process_file fsC9 (strOf "gone.txt") none 0 true none 0 none =
      .ok (standIn (strOf "gone.txt"), 0) ∧
    process_files fsC9 [strOf "gone.txt", strOf "a.txt"] none true true none none =
      .error (.fileNotFound (strOf "gone.txt")) :=
  ⟨by rfl, by rfl⟩

/-- A complete line as splitlinesKeep produces it in a newline-terminated
string: some newline-free content followed by one newline. -/
def KeptLine (l : Str) : Prop := ∃ a, l = a ++ ['\n'] ∧ '\n' ∉ a

theorem splitlinesKeep_eq_nil_iff {s : Str} : splitlinesKeep s = [] ↔ s = [] := by
  constructor
  · intro h
    cases s with
    | nil => rfl
    | cons c rest =>
      unfold splitlinesKeep at h
      by_cases hc : c = '\n'
      · rw [if_pos hc] at h; exact absurd h (by simp)
      · rw [if_neg hc] at h
        cases hr : splitlinesKeep rest with
        | nil => rw [hr] at h; exact absurd h (by simp)
        | cons l ls => rw [hr] at h; exact absurd h (by simp)
  · intro h; subst h; rfl

theorem splitlinesKeep_line (a t : Str) (ha : '\n' ∉ a) :
    splitlinesKeep (a ++ '\n' :: t) = (a ++ ['\n']) :: splitlinesKeep t := by
  induction a with
  | nil => rfl
  | cons c rest ih =>
    have hc : c ≠ '\n' := fun h => ha (by simp [h])
    have hrest : '\n' ∉ rest := fun h => ha (by simp [h])
    show splitlinesKeep (c :: (rest ++ '\n' :: t)) = _
    conv_lhs => unfold splitlinesKeep
    rw [if_neg hc, ih hrest]
    rfl

theorem splitlinesKeep_flatten {lls : List Str} (h : ∀ l ∈ lls, KeptLine l) :
    splitlinesKeep lls.flatten = lls := by
  induction lls with
  | nil => rfl
  | cons l rest ih =>
    obtain ⟨a, hl, ha⟩ := h l (by simp)
    rw [List.flatten_cons, hl, List.append_assoc, List.singleton_append,
      splitlinesKeep_line a _ ha, ih (fun q hq => h q (List.mem_cons_of_mem _ hq))]

theorem splitlinesKeep_all_kept : ∀ (s : Str), (∃ a, s = a ++ ['\n']) →
    ∀ l ∈ splitlinesKeep s, KeptLine l := by
  intro s
  induction s with
  | nil =>
    rintro ⟨a, ha⟩
    exact absurd ha.symm (by simp)
  | cons c rest ih =>
    rintro ⟨a, ha⟩ l hl
    cases a with
    | nil =>
      simp only [List.nil_append, List.cons.injEq] at ha
      obtain ⟨rfl, rfl⟩ := ha
      unfold splitlinesKeep at hl
      rw [if_pos rfl] at hl
      rcases List.mem_cons.mp hl with rfl | hl2
      · exact ⟨[], rfl, by simp⟩
      · rw [show splitlinesKeep ([] : Str) = [] from rfl] at hl2
        exact absurd hl2 (by simp)
    | cons x a2 =>
      simp only [List.cons_append, List.cons.injEq] at ha
      obtain ⟨rfl, rfl⟩ := ha
      by_cases hc : c = '\n'
      · unfold splitlinesKeep at hl
        rw [if_pos hc] at hl
        rcases List.mem_cons.mp hl with rfl | hl2
        · exact ⟨[], rfl, by simp⟩
        · exact ih ⟨a2, rfl⟩ l hl2
      · unfold splitlinesKeep at hl
        rw [if_neg hc] at hl
        cases hsp : splitlinesKeep (a2 ++ ['\n']) with
        | nil =>
          exact absurd (splitlinesKeep_eq_nil_iff.mp hsp) (by simp)
        | cons l1 ls =>
          rw [hsp] at hl
          rcases List.mem_cons.mp hl with rfl | hl2
          · obtain ⟨b, hb, hbn⟩ := ih ⟨a2, rfl⟩ l1 (by rw [hsp]; simp)
            exact ⟨c :: b, by rw [hb]; simp, by simp [hbn]; exact Ne.symm hc⟩
          · exact ih ⟨a2, rfl⟩ l (by rw [hsp]; exact List.mem_cons_of_mem _ hl2)

/-- The header line process_file emits for a source file at sequence index
i (without its surrounding blank lines). -/
def fileHeaderStr (src : Str) (sequence : Option SeqStyle) (i : Nat)
    (style : Option HeaderStyle) : Str :=
  create_header (basename src) sequence i style (some src)

theorem char_ofNat_toNat {m : Nat} (h : m < 55296) : (Char.ofNat m).toNat = m := by
  unfold Char.ofNat
  rw [dif_pos (Or.inl h)]
  rfl

theorem char_ofNat_ne_newline {m : Nat} (h1 : 10 < m) (h2 : m < 55296) :
    Char.ofNat m ≠ '\n' := by
  intro h
  have h3 := char_ofNat_toNat h2
  rw [h] at h3
  have h4 : Char.toNat '\n' = 10 := by decide
  rw [h4] at h3
  omega

theorem toUpper_ne_newline {c : Char} (h : c ≠ '\n') : c.toUpper ≠ '\n' := by
  by_cases hr : c.toNat ≥ 97 ∧ c.toNat ≤ 122
  · rw [show c.toUpper = Char.ofNat (c.toNat - 32) by simp [Char.toUpper, hr]]
    exact char_ofNat_ne_newline (by omega) (by omega)
  · rw [show c.toUpper = c by simp [Char.toUpper, hr]]
    exact h

theorem toLower_ne_newline {c : Char} (h : c ≠ '\n') : c.toLower ≠ '\n' := by
  by_cases hr : c.toNat ≥ 65 ∧ c.toNat ≤ 90
  · rw [show c.toLower = Char.ofNat (c.toNat + 32) by simp [Char.toLower, hr]]
    exact char_ofNat_ne_newline (by omega) (by omega)
  · rw [show c.toLower = c by simp [Char.toLower, hr]]
    exact h

theorem digitChar_ne_newline {k : Nat} (hk : k < 10) : Nat.digitChar k ≠ '\n' := by
  interval_cases k <;> decide

theorem natToStrAux_no_newline : ∀ (fuel n : Nat) (acc : Str),
    '\n' ∉ acc → '\n' ∉ natToStrAux fuel n acc := by
  intro fuel
  induction fuel with
  | zero => intro n acc hacc; exact hacc
  | succ f ih =>
    intro n acc hacc
    unfold natToStrAux
    split
    · rename_i hn
      intro hmem
      rcases List.mem_cons.mp hmem with h | h
      · exact digitChar_ne_newline hn h.symm
      · exact hacc h
    · rename_i hn
      apply ih
      intro hmem
      rcases List.mem_cons.mp hmem with h | h
      · exact digitChar_ne_newline (Nat.mod_lt _ (by omega)) h.symm
      · exact hacc h

theorem natToStr_no_newline (n : Nat) : '\n' ∉ natToStr n :=
  natToStrAux_no_newline (n + 1) n [] (by simp)

theorem lineNumTag_no_newline (mode : Option NumMode) (counter i : Nat) :
    '\n' ∉ lineNumTag mode counter i := by
  cases mode with
  | none => simp [lineNumTag]
  | some m =>
    cases m <;>
      · intro hmem
        unfold lineNumTag fmt4d at hmem
        simp only [List.append_assoc, List.mem_append, List.mem_replicate] at hmem
        rcases hmem with ⟨_, h⟩ | h | h
        · exact absurd h (by decide)
        · exact natToStr_no_newline _ h
        · exact absurd h (by decide)

theorem toRomanAux_no_newline : ∀ (pairs : List (Nat × Str)) (n : Nat),
    (∀ p ∈ pairs, '\n' ∉ p.2) → '\n' ∉ toRomanAux pairs n := by
  intro pairs
  induction pairs with
  | nil => intro n h; simp [toRomanAux]
  | cons p rest ih =>
    intro n h hmem
    unfold toRomanAux at hmem
    rcases List.mem_append.mp hmem with h1 | h1
    · obtain ⟨l, hl, hcl⟩ := List.mem_flatten.mp h1
      rw [List.eq_of_mem_replicate hl] at hcl
      exact h p (by simp) hcl
    · exact ih (n % p.1) (fun q hq => h q (List.mem_cons_of_mem _ hq)) h1

theorem to_roman_no_newline (n : Nat) : '\n' ∉ to_roman n := by
  intro hmem
  obtain ⟨c, hc, hcl⟩ := List.mem_map.mp hmem
  exact toLower_ne_newline
    (fun h => by
      subst h
      exact toRomanAux_no_newline romanPairs n (by decide) hc) hcl

theorem format_pos_no_newline (style : Option SeqStyle) (position : Nat) :
    '\n' ∉ format_pos style position := by
  cases style with
  | none => simp [format_pos]
  | some st =>
    cases st with
    | numerical =>
      intro hmem
      rcases List.mem_append.mp hmem with h | h
      · exact natToStr_no_newline _ h
      · exact absurd h (by decide)
    | letter =>
      intro hmem
      rcases List.mem_cons.mp hmem with h | h
      · exact char_ofNat_ne_newline (by omega)
          (by have := Nat.mod_lt (position + 1 - 1) (y := 26) (by omega); omega) h.symm
      · exact absurd h (by decide)
    | roman =>
      intro hmem
      rcases List.mem_append.mp hmem with h | h
      · exact to_roman_no_newline _ h
      · exact absurd h (by decide)

theorem splitOnChar_chars_sub {sep : Char} : ∀ {s : Str} {l : Str},
    l ∈ splitOnChar sep s → ∀ {c : Char}, c ∈ l → c ∈ s := by
  intro s
  induction s with
  | nil =>
    intro l hl c hc
    simp [splitOnChar] at hl
    subst hl
    exact absurd hc (by simp)
  | cons x rest ih =>
    intro l hl c hc
    unfold splitOnChar at hl
    by_cases hx : x = sep
    · rw [if_pos hx] at hl
      rcases List.mem_cons.mp hl with rfl | hl2
      · exact absurd hc (by simp)
      · exact List.mem_cons_of_mem _ (ih hl2 hc)
    · rw [if_neg hx] at hl
      cases hsp : splitOnChar sep rest with
      | nil =>
        rw [hsp] at hl
        rcases List.mem_cons.mp hl with rfl | hl2
        · rcases List.mem_cons.mp hc with rfl | hc2
          · simp
          · exact absurd hc2 (by simp)
        · exact absurd hl2 (by simp)
      | cons l1 ls =>
        rw [hsp] at hl
        rcases List.mem_cons.mp hl with rfl | hl2
        · rcases List.mem_cons.mp hc with rfl | hc2
          · simp
          · exact List.mem_cons_of_mem _ (ih (by rw [hsp]; simp) hc2)
        · exact List.mem_cons_of_mem _ (ih (by rw [hsp]; exact List.mem_cons_of_mem _ hl2) hc)

theorem getLastD_mem_of_ne_nil {α : Type} : ∀ {l : List α}, l ≠ [] → ∀ d : α,
    l.getLastD d ∈ l := by
  intro l
  induction l with
  | nil => intro h; exact absurd rfl h
  | cons x xs ih =>
    intro _ d
    cases xs with
    | nil => simp [List.getLastD]
    | cons y ys =>
      simp only [List.getLastD_cons]
      have h2 := ih (by simp) x
      simp only [List.getLastD_cons] at h2
      exact List.mem_cons_of_mem _ h2

theorem splitOnChar_ne_nil (sep : Char) (p : Str) : splitOnChar sep p ≠ [] := by
  cases p with
  | nil => simp [splitOnChar]
  | cons x rest =>
    unfold splitOnChar
    by_cases hx : x = sep
    · rw [if_pos hx]; simp
    · rw [if_neg hx]
      cases hsp : splitOnChar sep rest <;> simp

theorem basename_chars_sub {p : Str} {c : Char} (hc : c ∈ basename p) : c ∈ p := by
  unfold basename at hc
  exact splitOnChar_chars_sub
    (getLastD_mem_of_ne_nil (splitOnChar_ne_nil '/' p) []) hc

theorem pyTitleAux_ne_newline : ∀ (s : Str) (b : Bool),
    '\n' ∉ s → '\n' ∉ pyTitleAux b s := by
  intro s
  induction s with
  | nil => intro b h; simp [pyTitleAux]
  | cons c rest ih =>
    intro b h hmem
    unfold pyTitleAux at hmem
    split at hmem
    · rcases List.mem_cons.mp hmem with h1 | h1
      · have hcne : c ≠ '\n' := fun hx => h (by simp [hx])
        by_cases hb : b = true
        · rw [if_pos hb] at h1
          exact toLower_ne_newline hcne h1.symm
        · rw [if_neg hb] at h1
          exact toUpper_ne_newline hcne h1.symm
      · exact ih true (fun hx => h (List.mem_cons_of_mem _ hx)) h1
    · rcases List.mem_cons.mp hmem with h1 | h1
      · exact h (by simp [h1.symm])
      · exact ih false (fun hx => h (List.mem_cons_of_mem _ hx)) h1

theorem apply_style_no_newline {p : Str} (style : Option HeaderStyle)
    (hp : '\n' ∉ p) : '\n' ∉ apply_style_to_filename (basename p) style (some p) := by
  have hbase : '\n' ∉ basename p := fun h => hp (basename_chars_sub h)
  cases style with
  | none => exact hbase
  | some st =>
    cases st with
    | filename => exact hbase
    | path =>
      simp only [apply_style_to_filename]
      by_cases hpe : p = []
      · rw [if_pos hpe]; exact hbase
      · rw [if_neg hpe]; exact hp
    | nice =>
      simp only [apply_style_to_filename]
      by_cases hpe : p = []
      · rw [if_pos hpe]; exact hbase
      · rw [if_neg hpe]
        intro hmem
        simp only [List.append_assoc, List.mem_append] at hmem
        rcases hmem with h | h | h | h
        · apply pyTitleAux_ne_newline _ false _ h
          intro h2
          obtain ⟨c, hc, hcl⟩ := List.mem_map.mp h2
          have hcn : c = '\n' := by
            by_cases hdu : c = '-' ∨ c = '_'
            · rw [if_pos hdu] at hcl; exact absurd hcl (by decide)
            · rw [if_neg hdu] at hcl; exact hcl
          subst hcn
          unfold pySplitext at hc
          split at hc
          · exact hbase hc
          · split at hc
            · exact hbase hc
            · exact hbase (List.mem_of_mem_take hc)
        · exact absurd h (by decide)
        · exact hbase h
        · exact absurd h (by decide)

theorem fileHeaderStr_no_newline {src : Str} (sequence : Option SeqStyle)
    (i : Nat) (style : Option HeaderStyle) (hsrc : '\n' ∉ src) :
    '\n' ∉ fileHeaderStr src sequence i style := by
  simp only [fileHeaderStr, create_header]
  have hbase : '\n' ∉ basename src := fun h => hsrc (basename_chars_sub h)
  by_cases hpe : src = []
  · rw [if_pos hpe]
    intro hmem
    rcases List.mem_append.mp hmem with h | h
    · exact format_pos_no_newline _ _ h
    · exact hbase h
  · rw [if_neg hpe]
    intro hmem
    rcases List.mem_append.mp hmem with h | h
    · exact format_pos_no_newline _ _ h
    · exact apply_style_no_newline style hsrc h

/-!
## Claim C1: the TOC line-number invariant
-/

/-- The 1-indexed k-th line of a rendered output (Python splitlines view). -/
def lineAt (out : Str) (k : Nat) : Option Str := (splitlines out).get? (k - 1)

/-- Rendered line count of a file, as both TOC pass and render pass count
it (zero for a missing file, where neither pass gets that far). -/
def countLines (fs : FS) (s : Str) : Nat :=
  match fs.lookupFile s with
  | some c => (splitlinesKeep c).length
  | none => 0

/-- Cumulative rendered size of a list of files: each contributes its line
count plus 3 header lines. -/
def tocOffset (fs : FS) : List Str → Nat
  | [] => 0
  | s :: rest => countLines fs s + 3 + tocOffset fs rest

/-- The list of rendered output lines (newlines kept) the body pass emits
for a source list, starting at sequence index i with line counter value
counter; matches processFilesAux with headers shown when every source
opens. -/
def bodyLineList (fs : FS) (mode : Option NumMode) (seq : Option SeqStyle)
    (style : Option HeaderStyle) : List Str → Nat → Nat → List Str
  | [], _, _ => []
  | src :: rest, i, counter =>
    match fs.lookupFile src with
    | none => []
    | some c =>
      [['\n'], fileHeaderStr src seq i style ++ ['\n'], ['\n']] ++
        numberedLines mode (if mode = some NumMode.file then 0 else counter) 0
          (splitlinesKeep c) ++
        bodyLineList fs mode seq style rest (i + 1)
          ((if mode = some NumMode.file then 0 else counter) + (splitlinesKeep c).length)

theorem numberedLines_length (mode : Option NumMode) (counter : Nat) :
    ∀ (i : Nat) (ls : List Str), (numberedLines mode counter i ls).length = ls.length := by
  intro i ls
  induction ls generalizing i with
  | nil => rfl
  | cons l rest ih => simp [numberedLines, ih]

theorem numberedLines_kept (mode : Option NumMode) (counter : Nat) :
    ∀ (i : Nat) (ls : List Str), (∀ l ∈ ls, KeptLine l) →
      ∀ l2 ∈ numberedLines mode counter i ls, KeptLine l2 := by
  intro i ls
  induction ls generalizing i with
  | nil => intro _ l2 h2; simp [numberedLines] at h2
  | cons l rest ih =>
    intro hall l2 h2
    unfold numberedLines at h2
    rcases List.mem_cons.mp h2 with rfl | h3
    · obtain ⟨a, ha, han⟩ := hall l (by simp)
      refine ⟨lineNumTag mode counter i ++ a, by rw [ha]; simp, ?_⟩
      intro hmem
      rcases List.mem_append.mp hmem with h | h
      · exact lineNumTag_no_newline mode counter i h
      · exact han h
    · exact ih (i + 1) (fun q hq => hall q (List.mem_cons_of_mem _ hq)) l2 h3

theorem bodyLineList_eq_processFilesAux (fs : FS) (mode : Option NumMode)
    (seq : Option SeqStyle) (style : Option HeaderStyle) :
    ∀ (srcs : List Str) (i counter : Nat),
      (∀ s ∈ srcs, ∃ c, fs.lookupFile s = some c ∧ fs.readable s = true) →
      processFilesAux fs mode true seq style srcs i counter =
        .ok ((bodyLineList fs mode seq style srcs i counter).flatten) := by
  intro srcs
  induction srcs with
  | nil => intro i counter _; rfl
  | cons src rest ih =>
    intro i counter hall
    obtain ⟨c, hc, hread⟩ := hall src (by simp)
    have hopen : pyOpenRead fs src = .ok c := by simp [pyOpenRead, hc, hread]
    rw [processFilesAux_cons_ok (process_file_ok hopen)
      (ih (i + 1) ((if mode = some NumMode.file then 0 else counter) +
        (splitlinesKeep c).length) (fun q hq => hall q (List.mem_cons_of_mem _ hq)))]
    congr 1
    simp only [bodyLineList, hc, if_true]
    have h1 : strOf "\n" = ['\n'] := rfl
    have h2 : strOf "\n\n" = ['\n', '\n'] := rfl
    simp [fileHeaderStr, h1, h2, List.append_assoc]

theorem bodyLineList_kept (fs : FS) (mode : Option NumMode)
    (seq : Option SeqStyle) (style : Option HeaderStyle) :
    ∀ (srcs : List Str) (i counter : Nat),
      (∀ s ∈ srcs, ∃ c, fs.lookupFile s = some c ∧
        (c = [] ∨ ∃ a, c = a ++ ['\n'])) →
      (∀ s ∈ srcs, '\n' ∉ s) →
      ∀ l ∈ bodyLineList fs mode seq style srcs i counter, KeptLine l := by
  intro srcs
  induction srcs with
  | nil => intro i counter _ _ l hl; simp [bodyLineList] at hl
  | cons src rest ih =>
    intro i counter hall hnl l hl
    obtain ⟨c, hc, hterm⟩ := hall src (by simp)
    rw [show bodyLineList fs mode seq style (src :: rest) i counter =
      [['\n'], fileHeaderStr src seq i style ++ ['\n'], ['\n']] ++
        numberedLines mode (if mode = some NumMode.file then 0 else counter) 0
          (splitlinesKeep c) ++
        bodyLineList fs mode seq style rest (i + 1)
          ((if mode = some NumMode.file then 0 else counter) + (splitlinesKeep c).length)
      by simp [bodyLineList, hc]] at hl
    simp only [List.append_assoc, List.mem_append, List.mem_cons] at hl
    rcases hl with (rfl | rfl | rfl | h) | h | h
    · exact ⟨[], rfl, by simp⟩
    · exact ⟨fileHeaderStr src seq i style, rfl,
        fileHeaderStr_no_newline seq i style (hnl src (by simp))⟩
    · exact ⟨[], rfl, by simp⟩
    · exact absurd h (by simp)
    · refine numberedLines_kept mode _ 0 (splitlinesKeep c) ?_ l h
      rcases hterm with rfl | ⟨a, ha⟩
      · intro q hq
        rw [show splitlinesKeep ([] : Str) = [] from rfl] at hq
        exact absurd hq (by simp)
      · exact fun q hq => splitlinesKeep_all_kept c ⟨a, ha⟩ q hq
    · exact ih (i + 1) _ (fun q hq => hall q (List.mem_cons_of_mem _ hq))
        (fun q hq => hnl q (List.mem_cons_of_mem _ hq)) l h

theorem bodyLineList_header_pos (fs : FS) (mode : Option NumMode)
    (seq : Option SeqStyle) (style : Option HeaderStyle) :
    ∀ (srcs : List Str) (i counter k : Nat) (hk : k < srcs.length),
      (∀ s ∈ srcs, ∃ c, fs.lookupFile s = some c) →
      (bodyLineList fs mode seq style srcs i counter).get?
          (tocOffset fs (srcs.take k) + 1) =
        some (fileHeaderStr (srcs.get ⟨k, hk⟩) seq (i + k) style ++ ['\n']) := by
  intro srcs
  induction srcs with
  | nil => intro i counter k hk; exact absurd hk (by simp)
  | cons src rest ih =>
    intro i counter k hk hall
    obtain ⟨c, hc⟩ := hall src (by simp)
    rw [show bodyLineList fs mode seq style (src :: rest) i counter =
      [['\n'], fileHeaderStr src seq i style ++ ['\n'], ['\n']] ++
        numberedLines mode (if mode = some NumMode.file then 0 else counter) 0
          (splitlinesKeep c) ++
        bodyLineList fs mode seq style rest (i + 1)
          ((if mode = some NumMode.file then 0 else counter) + (splitlinesKeep c).length)
      by simp [bodyLineList, hc]]
    cases k with
    | zero => simp [tocOffset]
    | succ k2 =>
      have hcount : countLines fs src = (splitlinesKeep c).length := by
        simp [countLines, hc]
      have hidx : tocOffset fs ((src :: rest).take (k2 + 1)) + 1 =
          ([['\n'], fileHeaderStr src seq i style ++ ['\n'], ['\n']] ++
            numberedLines mode (if mode = some NumMode.file then 0 else counter) 0
              (splitlinesKeep c)).length +
          (tocOffset fs (rest.take k2) + 1) := by
        simp [tocOffset, hcount, numberedLines_length]
        omega
      rw [hidx, List.get?_append_right (by omega), Nat.add_sub_cancel_left]
      have h2 := ih (i + 1)
        ((if mode = some NumMode.file then 0 else counter) + (splitlinesKeep c).length)
        k2 (by simpa using hk) (fun q hq => hall q (List.mem_cons_of_mem _ hq))
      rw [h2]
      have harith : i + 1 + k2 = i + (k2 + 1) := by omega
      rw [harith]
      rfl

theorem dictGet?_dictSet_self {β : Type} : ∀ (d : List (Str × β)) (k : Str) (v : β),
    dictGet? (dictSet d k v) k = some v := by
  intro d k v
  induction d with
  | nil => simp [dictSet, dictGet?]
  | cons q d ih =>
    obtain ⟨k0, v0⟩ := q
    unfold dictSet
    by_cases hq : k0 = k
    · rw [if_pos hq]
      unfold dictGet?
      rw [List.find?_cons_of_pos _ (by simp [hq])]
      rfl
    · rw [if_neg hq]
      unfold dictGet?
      rw [List.find?_cons_of_neg _ (by simp [hq])]
      exact ih

theorem dictGet?_dictSet_ne {β : Type} : ∀ (d : List (Str × β)) (k k2 : Str) (v : β),
    k ≠ k2 → dictGet? (dictSet d k v) k2 = dictGet? d k2 := by
  intro d k k2 v hne
  induction d with
  | nil =>
    unfold dictSet dictGet?
    rw [List.find?_cons_of_neg _ (by simp [hne])]
  | cons q d ih =>
    obtain ⟨k0, v0⟩ := q
    unfold dictSet
    by_cases hq : k0 = k
    · rw [if_pos hq]
      unfold dictGet?
      by_cases hq2 : k0 = k2
      · exact absurd (hq.symm.trans hq2) hne
      · rw [List.find?_cons_of_neg _ (by simp [hq2]),
          List.find?_cons_of_neg _ (by simp [hq2])]
    · rw [if_neg hq]
      unfold dictGet?
      by_cases hq2 : k0 = k2
      · rw [List.find?_cons_of_pos _ (by simp [hq2]),
          List.find?_cons_of_pos _ (by simp [hq2])]
      · rw [List.find?_cons_of_neg _ (by simp [hq2]),
          List.find?_cons_of_neg _ (by simp [hq2])]
        exact ih

theorem splitlines_length (c : Str) : (splitlines c).length = (splitlinesKeep c).length := by
  simp [splitlines]

theorem tocNumbersAux_spec (fs : FS) :
    ∀ (srcs : List Str) (acc : List (Str × Nat)) (current : Nat),
      (∀ s ∈ srcs, ∃ c, fs.lookupFile s = some c ∧ fs.readable s = true) →
      ∃ nums, tocNumbersAux fs srcs acc current = .ok nums ∧
        (∀ s, s ∉ srcs → dictGet? nums s = dictGet? acc s) ∧
        (srcs.Nodup → ∀ k (hk : k < srcs.length),
          dictGet? nums (srcs.get ⟨k, hk⟩) =
            some (current + 3 + tocOffset fs (srcs.take k))) := by
  intro srcs
  induction srcs with
  | nil =>
    intro acc current _
    exact ⟨acc, rfl, fun s _ => rfl, fun _ k hk => absurd hk (by simp)⟩
  | cons s rest ih =>
    intro acc current hall
    obtain ⟨c, hc, hread⟩ := hall s (by simp)
    have hopen : pyOpenRead fs s = .ok c := by simp [pyOpenRead, hc, hread]
    have hstep : tocNumbersAux fs (s :: rest) acc current =
        tocNumbersAux fs rest (dictSet acc s (current + 3))
          (current + (splitlines c).length + 3) := by
      conv_lhs => unfold tocNumbersAux
      rw [hopen]
    obtain ⟨nums, heq, hout, hval⟩ := ih (dictSet acc s (current + 3))
      (current + (splitlines c).length + 3)
      (fun q hq => hall q (List.mem_cons_of_mem _ hq))
    refine ⟨nums, hstep.trans heq, ?_, ?_⟩
    · intro s0 hs0
      have hs0s : s0 ≠ s := fun h => hs0 (by simp [h])
      have hs0r : s0 ∉ rest := fun h => hs0 (List.mem_cons_of_mem _ h)
      rw [hout s0 hs0r, dictGet?_dictSet_ne _ _ _ _ (Ne.symm hs0s)]
    · intro hnd k hk
      cases k with
      | zero =>
        have hsr : s ∉ rest := (List.nodup_cons.mp hnd).1
        rw [show (s :: rest).get ⟨0, hk⟩ = s from rfl, hout s hsr,
          dictGet?_dictSet_self]
        simp [tocOffset]
      | succ k2 =>
        have h2 := hval (List.nodup_cons.mp hnd).2 k2 (by simpa using hk)
        rw [show (s :: rest).get ⟨k2 + 1, hk⟩ = rest.get ⟨k2, by simpa using hk⟩ from rfl,
          h2]
        congr 1
        have hcl : countLines fs s = (splitlines c).length := by
          simp [countLines, hc, splitlines_length]
        simp [tocOffset, hcl]
        omega

theorem dictSet_ne_nil {β : Type} (d : List (Str × β)) (k : Str) (v : β) :
    dictSet d k v ≠ [] := by
  cases d with
  | nil => simp [dictSet]
  | cons q rest =>
    obtain ⟨k0, v0⟩ := q
    unfold dictSet
    by_cases hq : k0 = k
    · rw [if_pos hq]; simp
    · rw [if_neg hq]; simp

theorem tocFormatted_foldl_ne_nil (style : Option HeaderStyle) :
    ∀ (srcs : List Str) (d : List (Str × Str)), d ≠ [] →
      srcs.foldl (fun d src =>
        dictSet d src (apply_style_to_filename (basename src) style (some src))) d ≠ [] := by
  intro srcs
  induction srcs with
  | nil => intro d h; exact h
  | cons s rest ih =>
    intro d _
    exact ih _ (dictSet_ne_nil _ _ _)

theorem tocFormatted_ne_nil {sources : List Str} (hne : sources ≠ [])
    (style : Option HeaderStyle) : tocFormatted sources style ≠ [] := by
  cases sources with
  | nil => exact absurd rfl hne
  | cons s rest =>
    unfold tocFormatted
    rw [List.foldl_cons]
    exact tocFormatted_foldl_ne_nil style rest _ (dictSet_ne_nil _ _ _)

theorem tocFormatted_get_mem (style : Option HeaderStyle) :
    ∀ (sources : List Str) (d : List (Str × Str)) (s : Str),
      dictGet? (sources.foldl (fun d src =>
        dictSet d src (apply_style_to_filename (basename src) style (some src))) d) s =
      if s ∈ sources then some (apply_style_to_filename (basename s) style (some s))
      else dictGet? d s := by
  intro sources
  induction sources with
  | nil => intro d s; simp
  | cons t rest ih =>
    intro d s
    rw [List.foldl_cons, ih]
    by_cases hs : s ∈ rest
    · rw [if_pos hs, if_pos (List.mem_cons_of_mem _ hs)]
    · rw [if_neg hs]
      by_cases hst : s = t
      · subst hst
        rw [dictGet?_dictSet_self, if_pos (by simp)]
      · rw [dictGet?_dictSet_ne _ _ _ _ (Ne.symm hst),
          if_neg (by simp [hst, hs])]

/-- The TOC text as a list of rendered lines (newlines kept). -/
def tocLineList (fmtd : List (Str × Str)) (nums : List (Str × Nat))
    (maxLen : Nat) (sources : List Str) : List Str :=
  [['\n'], strOf "TOC" ++ ['\n'], ['\n']] ++
    sources.map (tocEntryLine fmtd nums maxLen) ++ [['\n']]

theorem tocLineList_length (fmtd : List (Str × Str)) (nums : List (Str × Nat))
    (maxLen : Nat) (sources : List Str) :
    (tocLineList fmtd nums maxLen sources).length = sources.length + 4 := by
  simp [tocLineList]

theorem tocEntryLine_shape (fmtd : List (Str × Str)) (nums : List (Str × Nat))
    (maxLen : Nat) (src : Str) :
    tocEntryLine fmtd nums maxLen src =
      (((dictGet? fmtd src).getD []) ++ strOf " " ++
        List.replicate (maxLen - ((dictGet? fmtd src).getD []).length + 5) '.' ++
        strOf " " ++ natToStr ((dictGet? nums src).getD 0)) ++ ['\n'] := by
  unfold tocEntryLine
  have h1 : strOf "\n" = ['\n'] := rfl
  rw [h1]

theorem generate_toc_eq (fs : FS) (sources : List Str) (style : Option HeaderStyle)
    {nums : List (Str × Nat)} (hne : sources ≠ [])
    (hnums : tocNumbersAux fs sources [] (2 + sources.length + 1) = .ok nums) :
    generate_table_of_contents fs sources style =
      .ok ((tocLineList (tocFormatted sources style) nums
        (tocMaxLen (tocFormatted sources style)) sources).flatten, nums) := by
  simp only [generate_table_of_contents, hnums]
  rw [if_neg (tocFormatted_ne_nil hne style)]
  congr 1
  congr 1
  have hTOC : create_header (strOf "TOC") none 0 style none = strOf "TOC" := rfl
  rw [hTOC]
  simp only [tocLineList, List.flatten_append, List.flatten_cons, List.flatten_nil]
  have h1 : strOf "\n" = ['\n'] := rfl
  have h2 : strOf "\n\n" = ['\n', '\n'] := rfl
  rw [h1, h2]
  simp [List.append_assoc]

/-- Claim-side checker for C1: with TOC generation enabled and headers
shown, for every index k the line number the TOC reports for the k-th
source file is exactly the 1-indexed line of the complete rendered output
(TOC text prepended to the body) at which that file's header line stands. -/
def tocClaimHolds (fs : FS) (sources : List Str) (mode : Option NumMode)
    (sequence : Option SeqStyle) (style : Option HeaderStyle) : Bool :=
  match process_files fs sources mode true true sequence style,
      generate_table_of_contents fs sources style with
  | .ok out, .ok (_, nums) =>
    (List.range sources.length).all (fun k =>
      match dictGet? nums (sources.getD k []) with
      | some r => decide (lineAt out r =
          some (fileHeaderStr (sources.getD k []) sequence k style))
      | none => false)
  | _, _ => false

theorem stripNl_concat (a : Str) : stripNl (a ++ ['\n']) = a := by
  unfold stripNl
  rw [List.getLast?_concat, if_pos rfl]
  exact List.dropLast_concat

theorem tocLineList_kept (fs : FS) (sources : List Str) (style : Option HeaderStyle)
    (nums : List (Str × Nat)) (hnl : ∀ s ∈ sources, '\n' ∉ s) :
    ∀ l ∈ tocLineList (tocFormatted sources style) nums
      (tocMaxLen (tocFormatted sources style)) sources, KeptLine l := by
  intro l hl
  simp only [tocLineList, List.append_assoc, List.mem_append, List.mem_cons,
    List.mem_map, List.mem_singleton] at hl
  rcases hl with (rfl | rfl | rfl | h) | ⟨src, hsrc, rfl⟩ | (rfl | h)
  · exact ⟨[], rfl, by simp⟩
  · exact ⟨strOf "TOC", rfl, by decide⟩
  · exact ⟨[], rfl, by simp⟩
  · exact absurd h (by simp)
  · rw [tocEntryLine_shape]
    refine ⟨_, rfl, ?_⟩
    have hfmt : dictGet? (tocFormatted sources style) src =
        some (apply_style_to_filename (basename src) style (some src)) := by
      rw [show tocFormatted sources style = sources.foldl (fun d src =>
          dictSet d src (apply_style_to_filename (basename src) style (some src))) []
        from rfl, tocFormatted_get_mem, if_pos hsrc]
    rw [hfmt]
    intro hmem
    simp only [Option.getD_some, List.append_assoc, List.mem_append,
      List.mem_replicate] at hmem
    rcases hmem with h | h | ⟨_, h⟩ | h | h
    · exact apply_style_no_newline style (hnl src hsrc) h
    · exact absurd h (by decide)
    · exact absurd h (by decide)
    · exact absurd h (by decide)
    · exact natToStr_no_newline _ h
  · exact ⟨[], rfl, by simp⟩
  · exact absurd h (by simp)

/-- Claim C1 (amended): for every non-empty, duplicate-free list of
readable source files whose paths contain no newline character and whose
contents are each empty or newline-terminated, and for every numbering
mode, sequence style and header style, with headers shown and TOC enabled,
the line number the TOC reports for file k is exactly the 1-indexed line of
the complete rendered output at which that file's header line stands.  (The
unamended claim fails when some file's content lacks a trailing newline, as
the counterexample shows, because the TOC pass counts lines with splitlines
while the render pass concatenates the raw text, letting the next block's
leading newline terminate the unterminated last line.) -/
theorem claim_C1_amended_toc_line_numbers (fs : FS) (sources : List Str)
    (mode : Option NumMode) (seq : Option SeqStyle) (style : Option HeaderStyle)
    (hne : sources ≠ []) (hnd : sources.Nodup)
    (hok : ∀ s ∈ sources, ∃ c, fs.lookupFile s = some c ∧ fs.readable s = true ∧
      (c = [] ∨ ∃ a, c = a ++ ['\n']))
    (hnl : ∀ s ∈ sources, '\n' ∉ s) :
    tocClaimHolds fs sources mode seq style = true := by
  have hok1 : ∀ s ∈ sources, ∃ c, fs.lookupFile s = some c ∧ fs.readable s = true :=
    fun s hs => (hok s hs).imp (fun c hc => ⟨hc.1, hc.2.1⟩)
  have hok2 : ∀ s ∈ sources, ∃ c, fs.lookupFile s = some c ∧
      (c = [] ∨ ∃ a, c = a ++ ['\n']) :=
    fun s hs => (hok s hs).imp (fun c hc => ⟨hc.1, hc.2.2⟩)
  have hok3 : ∀ s ∈ sources, ∃ c, fs.lookupFile s = some c :=
    fun s hs => (hok s hs).imp (fun c hc => hc.1)
  obtain ⟨nums, hnums, hout, hval⟩ :=
    tocNumbersAux_spec fs sources [] (2 + sources.length + 1) hok1
  have hg := generate_toc_eq fs sources style hne hnums
  have hbody := bodyLineList_eq_processFilesAux fs mode seq style sources 0 0 hok1
  have hpf : process_files fs sources mode true true seq style =
      .ok ((tocLineList (tocFormatted sources style) nums
          (tocMaxLen (tocFormatted sources style)) sources).flatten ++
        (bodyLineList fs mode seq style sources 0 0).flatten) := by
    simp [process_files, hg, hbody]
  have hsplit : splitlinesKeep
      ((tocLineList (tocFormatted sources style) nums
          (tocMaxLen (tocFormatted sources style)) sources).flatten ++
        (bodyLineList fs mode seq style sources 0 0).flatten) =
      tocLineList (tocFormatted sources style) nums
          (tocMaxLen (tocFormatted sources style)) sources ++
        bodyLineList fs mode seq style sources 0 0 := by
    rw [← List.flatten_append]
    apply splitlinesKeep_flatten
    intro l hl
    rcases List.mem_append.mp hl with h | h
    · exact tocLineList_kept fs sources style nums hnl l h
    · exact bodyLineList_kept fs mode seq style sources 0 0 hok2 hnl l h
  unfold tocClaimHolds
  rw [hpf, hg]
  apply List.all_eq_true.mpr
  intro k hkmem
  have hklt : k < sources.length := List.mem_range.mp hkmem
  have hgd : sources.getD k [] = sources.get ⟨k, hklt⟩ := List.getD_eq_get _ _ hklt
  rw [hgd, hval hnd k hklt]
  rw [decide_eq_true_eq]
  unfold lineAt splitlines
  rw [hsplit]
  have hr : 2 + sources.length + 1 + 3 + tocOffset fs (sources.take k) - 1 =
      (tocLineList (tocFormatted sources style) nums
        (tocMaxLen (tocFormatted sources style)) sources).length +
      (tocOffset fs (sources.take k) + 1) := by
    rw [tocLineList_length]
    omega
  rw [List.get?_map, hr, List.get?_append_right (by omega), Nat.add_sub_cancel_left,
    bodyLineList_header_pos fs mode seq style sources 0 0 k hklt hok3]
  simp [stripNl_concat]

/-- File system for the claim C1 witness: two newline-terminated files. -/
def fsC1w : FS :=
  ⟨[(strOf "a.txt", strOf "hello\n"), (strOf "b.txt", strOf "w1\nw2\n")], [], []⟩

/-- Witness for claim C1: the amended invariant applied to two concrete
newline-terminated files with global numbering, roman sequence numbers and
the nice header style. -/
theorem claim_C1_amended_toc_line_numbers_witness :
    tocClaimHolds fsC1w [strOf "a.txt", strOf "b.txt"] (some NumMode.all)
      (some SeqStyle.roman) (some HeaderStyle.nice) = true :=
  claim_C1_amended_toc_line_numbers fsC1w [strOf "a.txt", strOf "b.txt"]
    (some NumMode.all) (some SeqStyle.roman) (some HeaderStyle.nice)
    (by simp) (by decide)
    (by
      intro s hs
      rcases List.mem_cons.mp hs with rfl | hs1
      · exact ⟨strOf "hello\n", rfl, rfl, Or.inr ⟨strOf "hello", rfl⟩⟩
      · rcases List.mem_cons.mp hs1 with rfl | hs2
        · exact ⟨strOf "w1\nw2\n", rfl, rfl, Or.inr ⟨strOf "w1\nw2", rfl⟩⟩
        · exact absurd hs2 (by simp))
    (by decide)

/-- File system for the claim C1 counterexample: a.txt has no trailing
newline, b.txt is newline-terminated. -/
def fsC1c : FS :=
  ⟨[(strOf "a.txt", strOf "hello"), (strOf "b.txt", strOf "world\n")], [], []⟩

/-- Counterexample to claim C1: over the readable files a.txt (content
hello, no trailing newline) and b.txt, with TOC on, headers shown, no
numbering, plain style, the TOC reports line 12 for b.txt but b.txt's
header actually stands on line 11 of the rendered output, because the
newline that opens b.txt's block is consumed terminating a.txt's last
line; so the universally quantified claim is false. -/
theorem claim_C1_counterexample :
    tocClaimHolds fsC1c [strOf "a.txt", strOf "b.txt"] none none none = false := by
  rfl

def itemC10c : ContentItem := ⟨strOf "e.txt", strOf "e.txt", [], none⟩

/-- Counterexample to claim C10: a ContentItem over an existing, readable,
zero-line file with an empty ranges list passes validation, so an empty
file CAN pass ContentItem validation, contradicting the consequence the
claim draws. -/
theorem claim_C10_counterexample :
    fsC10w.lookupFile (strOf "e.txt") = some (strOf "") ∧
    (splitlinesKeep (strOf "")).length = 0 ∧
    itemC10c.validate fsC10w = .ok true :=
  ⟨by rfl, by rfl, by rfl⟩

/-!
## Claim C4: the sentinel-aware line-reference parser

The repository imports parse_line_reference from the module nanodoc.files,
whose source is not present under src/ (only its tests and importers are);
unlike the older parser of nanodoc.py it produces LineRange values of
data.py and accepts the end-of-file sentinel token.  The definitions below
are modelled from the spec (section 4.1) and checked against the
repository's own tests of that module.
-/

/-- Modelled from the spec: one segment of the selector grammar of
nanodoc/files.py (absent from src/), per spec section 4.1: a segment is
L followed by a number, or L number dash m where m is a number or the
end-of-file sentinel token X; numbers must be positive, and a numeric end
must not be smaller than the start. -/
def parseSegmentX (part : Str) : Except Str LineRange :=
  match part with
  | [] => .error (strOf "Invalid line reference format: " ++ part)
  | c :: numPart =>
    if c = 'L' then
      if numPart.contains '-' then
        match splitOnChar '-' numPart with
        | [s, e] =>
          match pyInt s with
          | some st =>
            if e = strOf "X" then
              if st ≤ 0 then .error (strOf "Line numbers must be positive: " ++ part)
              else .ok ⟨st, .X⟩
            else
              match pyInt e with
              | some en =>
                if st ≤ 0 ∨ en ≤ 0 then
                  .error (strOf "Line numbers must be positive: " ++ part)
                else if st > en then
                  .error (strOf "Start line must be less than or equal to end line: " ++ part)
                else .ok ⟨st, .num en⟩
              | none => .error (strOf "Invalid line range format: " ++ part)
          | none => .error (strOf "Invalid line range format: " ++ part)
        | _ => .error (strOf "Invalid line range format: " ++ part)
      else
        match pyInt numPart with
        | some n =>
          if n ≤ 0 then .error (strOf "Line number must be positive: " ++ part)
          else .ok ⟨n, .num n⟩
        | none => .error (strOf "Invalid line number format: " ++ part)
    else .error (strOf "Invalid line reference format: " ++ part)

/-- Modelled from the spec: the segment loop of the files.py parser. -/
def parseSegmentsX : List Str → Except Str (List LineRange)
  | [] => .ok []
  | p :: ps =>
    match parseSegmentX p with
    | .error e => .error e
    | .ok r =>
      match parseSegmentsX ps with
      | .error e => .error e
      | .ok rest => .ok (r :: rest)

/-- Modelled from the spec: parse_line_reference of nanodoc/files.py,
returning ordered LineRange values. -/
def parseLineReferenceX (lineRef : Str) : Except Str (List LineRange) :=
  if lineRef = [] then .error (strOf "Empty line reference")
  else parseSegmentsX (splitOnChar ',' lineRef)

example : parseLineReferenceX (strOf "L5-X") = .ok [⟨5, .X⟩] := by rfl

example : parseLineReferenceX (strOf "L5-3") =
    .error (strOf "Start line must be less than or equal to end line: L5-3") := by rfl

theorem splitOnChar_no_sep {sep : Char} : ∀ {s : Str}, (∀ c ∈ s, c ≠ sep) →
    splitOnChar sep s = [s] := by
  intro s
  induction s with
  | nil => intro _; rfl
  | cons c rest ih =>
    intro h
    unfold splitOnChar
    rw [if_neg (h c (by simp)), ih (fun q hq => h q (List.mem_cons_of_mem _ hq))]

theorem splitOnChar_first {sep : Char} : ∀ {a : Str} (b : Str), (∀ c ∈ a, c ≠ sep) →
    splitOnChar sep (a ++ sep :: b) = a :: splitOnChar sep b := by
  intro a
  induction a with
  | nil =>
    intro b _
    show splitOnChar sep (sep :: b) = _
    conv_lhs => unfold splitOnChar
    rw [if_pos rfl]
  | cons c rest ih =>
    intro b h
    show splitOnChar sep (c :: (rest ++ sep :: b)) = _
    conv_lhs => unfold splitOnChar
    rw [if_neg (h c (by simp)), ih b (fun q hq => h q (List.mem_cons_of_mem _ hq))]

theorem digit_ne_special {c : Char} (h : c.isDigit = true) :
    c ≠ ',' ∧ c ≠ '-' := by
  constructor <;> · intro heq; subst heq; exact absurd h (by decide)

/-- Claim C4: the line-reference parser of nanodoc/files.py accepts a range
segment L n dash X whose end is the end-of-file sentinel token, returning a
range whose end is stored as the sentinel, and such a selector does not
fail; moreover the sentinel is resolved only against the file's actual line
count at normalization time (normalize maps it to max_lines). -/
theorem claim_C4_sentinel_range_accepted (ds : Str) (k : Int)
    (hne : ds ≠ []) (hdig : ∀ c ∈ ds, c.isDigit = true)
    (hval : pyInt ds = some k) (hpos : 0 < k) :
    parseLineReferenceX ('L' :: ds ++ strOf "-X") = .ok [⟨k, .X⟩] ∧
    ∀ n : Int, LineRange.normalize ⟨k, .X⟩ n = (k, n) := by
  constructor
  · have hnosep : ∀ c ∈ 'L' :: ds ++ strOf "-X", c ≠ ',' := by
      intro c hc
      rcases List.mem_cons.mp hc with rfl | hc2
      · decide
      · rcases List.mem_append.mp hc2 with h | h
        · exact (digit_ne_special (hdig c h)).1
        · rcases List.mem_cons.mp h with rfl | h2
          · decide
          · rcases List.mem_cons.mp h2 with rfl | h3
            · decide
            · exact absurd h3 (by simp)
    have hsplit1 : splitOnChar ',' ('L' :: ds ++ strOf "-X") =
        ['L' :: ds ++ strOf "-X"] := splitOnChar_no_sep hnosep
    have hsplit2 : splitOnChar '-' (ds ++ strOf "-X") = [ds, strOf "X"] := by
      rw [show ds ++ strOf "-X" = ds ++ '-' :: strOf "X" from rfl,
        splitOnChar_first (strOf "X") (fun c hc => (digit_ne_special (hdig c hc)).2)]
      rfl
    have hcont : (ds ++ strOf "-X").contains '-' = true := by
      have hmem : '-' ∈ ds ++ strOf "-X" := List.mem_append_right _ (by simp [strOf])
      exact List.elem_eq_true_of_mem hmem
    have hseg : parseSegmentX ('L' :: (ds ++ strOf "-X")) = .ok ⟨k, .X⟩ := by
      simp [parseSegmentX, hcont, hsplit2, hval, show ¬ (k ≤ 0) from by omega]
      intro h1 h2
      exact absurd (by decide : ('-' : Char) ∈ strOf "-X") h2
    unfold parseLineReferenceX
    rw [if_neg (by simp), hsplit1]
    simp [parseSegmentsX, hseg]
  · intro n
    rfl

/-- Witness for claim C4: the selector L3-X parses to the single range
(3, sentinel), and normalizing that range against a 7-line file gives
lines 3 through 7. -/
theorem claim_C4_sentinel_range_accepted_witness :
    parseLineReferenceX ('L' :: strOf "3" ++ strOf "-X") = .ok [⟨3, .X⟩] ∧
      LineRange.normalize ⟨3, .X⟩ 7 = (3, 7) :=
  ⟨(claim_C4_sentinel_range_accepted (strOf "3") 3 (by simp [strOf]) (by decide)
      (by rfl) (by omega)).1,
   (claim_C4_sentinel_range_accepted (strOf "3") 3 (by simp [strOf]) (by decide)
      (by rfl) (by omega)).2 7⟩

/-!
## Claim C3: directory expansion with gitignore filtering

The gitignore-aware expand_directory lives in nanodoc/files.py, which is
absent from src/ (only its tests, such as tests/coredoc/test_gitignore.py,
and its importers are present); the definitions below are modelled from the
spec (section 4.2 step 2): recursively walk the directory, collect files
whose extension is in the allow-list (default .txt and .md), exclude every
file or directory matched by .gitignore patterns found at any level, and
return the collected full paths sorted.
-/

/-- Modelled from the spec: a directory tree; directories carry named
entries. -/
inductive FTree where
  | file (content : Str)
  | dir (entries : List (Str × FTree))

/-- Whether a tree node is a directory. -/
def FTree.isDirB : FTree → Bool
  | .dir _ => true
  | .file _ => false

/-- Modelled from the spec: the patterns contributed by a directory's
.gitignore file: its non-empty, non-comment lines. -/
def entryGitignore : List (Str × FTree) → List Str
  | [] => []
  | (name, FTree.file c) :: rest =>
    if name = strOf ".gitignore" then
      ((splitlines c).map pyStrip).filter (fun l => !(l.isEmpty || startsWithHash l))
    else entryGitignore rest
  | (_, FTree.dir _) :: rest => entryGitignore rest

/-- Modelled from the spec: whether one gitignore pattern matches an entry
name (exact name, directory pattern with a trailing slash, or a star
wildcard matching a name suffix, the forms exercised by the repository's
gitignore tests). -/
def matchesPattern (pat name : Str) (isDir : Bool) : Bool :=
  decide (pat = name) || (isDir && decide (pat = name ++ ['/'])) ||
    (match pat with
     | '*' :: suf => decide (suf <:+ name)
     | _ => false)

/-- An entry is excluded when any active pattern matches it. -/
def matchedAny (pats : List Str) (name : Str) (isDir : Bool) : Bool :=
  pats.any (fun p => matchesPattern p name isDir)

/-- str.endswith test against the extension allow-list. -/
def hasAllowedExt (exts : List Str) (name : Str) : Bool :=
  exts.any (fun e => decide (e <:+ name))

mutual

/-- Modelled from the spec: walk a subtree with the patterns accumulated so
far, adding the subtree's own .gitignore patterns, and collect the relative
component paths of the kept files. -/
def collectTree (exts : List Str) (pats : List Str) : FTree → List (List Str)
  | .file _ => []
  | .dir entries => collectEntries exts (pats ++ entryGitignore entries) entries

/-- Modelled from the spec: walk the entries of one directory in order:
skip entries matched by an active pattern (matched directories are pruned
entirely), keep files with an allowed extension, and recurse into
directories. -/
def collectEntries (exts : List Str) (pats : List Str) :
    List (Str × FTree) → List (List Str)
  | [] => []
  | (name, child) :: rest =>
    (if matchedAny pats name child.isDirB then []
     else
       match child with
       | .file _ => if hasAllowedExt exts name then [[name]] else []
       | .dir _ => (collectTree exts pats child).map (fun comps => name :: comps)) ++
      collectEntries exts pats rest

end

/-- Join a relative component path below the root directory argument. -/
def joinPath (root : Str) (comps : List Str) : Str :=
  comps.foldl (fun acc n => acc ++ ['/'] ++ n) root

/-- Lexicographic order on paths by code point, as Python sorted() orders
strings. -/
def strLe : Str → Str → Bool
  | [], _ => true
  | _ :: _, [] => false
  | a :: as, b :: bs => if a < b then true else if b < a then false else strLe as bs

/-- The path order as a decidable relation, for sorting. -/
def strLeP (a b : Str) : Prop := strLe a b = true

instance : DecidableRel strLeP := fun a b => by unfold strLeP; infer_instance

/-- Modelled from the spec: expand_directory of nanodoc/files.py.  Walks
the directory (given as its entry list), collecting the files whose
extension is in the allow-list and that no .gitignore pattern in force at
their level excludes, and returns the full paths sorted. -/
def expand_directory (root : Str) (entries : List (Str × FTree))
    (exts : List Str := [strOf ".txt", strOf ".md"]) : List Str :=
  ((collectEntries exts (entryGitignore entries) entries).map
    (joinPath root)).insertionSort strLeP

mutual

/-- Declarative reading of the claim, tree side: comps is the component
path of a file selected below this subtree once the subtree's own
.gitignore patterns are added to those in force. -/
inductive SelT (exts : List Str) : List Str → FTree → List Str → Prop where
  | dir {pats entries comps} :
      SelE exts (pats ++ entryGitignore entries) entries comps →
      SelT exts pats (.dir entries) comps

/-- Declarative reading of the claim, entry-list side: a file entry with an
allowed extension that no active pattern matches is selected; a directory
entry that no active pattern matches contributes its own selections. -/
inductive SelE (exts : List Str) : List Str → List (Str × FTree) → List Str → Prop where
  | fileHere {pats entries name c} :
      (name, FTree.file c) ∈ entries →
      matchedAny pats name false = false →
      hasAllowedExt exts name = true →
      SelE exts pats entries [name]
  | dirThere {pats entries name sub comps} :
      (name, FTree.dir sub) ∈ entries →
      matchedAny pats name true = false →
      SelT exts pats (FTree.dir sub) comps →
      SelE exts pats entries (name :: comps)

end

theorem strLe_total : ∀ (a b : Str), strLe a b = true ∨ strLe b a = true := by
  intro a
  induction a with
  | nil => intro b; left; rfl
  | cons x as ih =>
    intro b
    cases b with
    | nil => right; rfl
    | cons y bs =>
      unfold strLe
      rcases lt_trichotomy x y with h | h | h
      · left; rw [if_pos h]
      · subst h
        simpa [lt_irrefl] using ih bs
      · right; rw [if_pos h]

theorem strLe_trans : ∀ (a b c : Str), strLe a b = true → strLe b c = true →
    strLe a c = true := by
  intro a
  induction a with
  | nil => intro b c _ _; rfl
  | cons x as ih =>
    intro b c h1 h2
    cases b with
    | nil => exact absurd h1 (by simp [strLe])
    | cons y bs =>
      cases c with
      | nil => exact absurd h2 (by simp [strLe])
      | cons z cs =>
        unfold strLe at h1 h2 ⊢
        rcases lt_trichotomy x y with hxy | hxy | hxy
        · rcases lt_trichotomy y z with hyz | hyz | hyz
          · rw [if_pos (lt_trans hxy hyz)]
          · subst hyz; rw [if_pos hxy]
          · rw [if_neg (lt_asymm hyz), if_pos hyz] at h2
            exact absurd h2 (by simp)
        · subst hxy
          rcases lt_trichotomy x z with hxz | hxz | hxz
          · rw [if_pos hxz]
          · subst hxz
            rw [if_neg (lt_irrefl x), if_neg (lt_irrefl x)] at h1 h2 ⊢
            exact ih bs cs h1 h2
          · rw [if_neg (lt_asymm hxz), if_pos hxz] at h2
            exact absurd h2 (by simp)
        · rw [if_neg (lt_asymm hxy), if_pos hxy] at h1
          exact absurd h1 (by simp)

instance : IsTotal Str strLeP :=
  ⟨fun a b => by unfold strLeP; exact strLe_total a b⟩

instance : IsTrans Str strLeP :=
  ⟨fun a b c h1 h2 => by
    unfold strLeP at h1 h2 ⊢
    exact strLe_trans a b c h1 h2⟩

mutual

theorem mem_collectTree_iff (exts pats : List Str) (t : FTree) (comps : List Str) :
    comps ∈ collectTree exts pats t ↔ SelT exts pats t comps := by
  cases t with
  | file c =>
    constructor
    · intro h
      rw [show collectTree exts pats (.file c) = [] from rfl] at h
      exact absurd h (by simp)
    · intro h
      cases h
  | dir entries =>
    rw [show collectTree exts pats (.dir entries) =
      collectEntries exts (pats ++ entryGitignore entries) entries from rfl]
    constructor
    · intro h
      exact SelT.dir ((mem_collectEntries_iff exts
        (pats ++ entryGitignore entries) entries comps).mp h)
    · intro h
      cases h with
      | dir h2 =>
        exact (mem_collectEntries_iff exts
          (pats ++ entryGitignore entries) entries comps).mpr h2

theorem mem_collectEntries_iff (exts pats : List Str)
    (entries : List (Str × FTree)) (comps : List Str) :
    comps ∈ collectEntries exts pats entries ↔ SelE exts pats entries comps := by
  cases entries with
  | nil =>
    constructor
    · intro h
      rw [show collectEntries exts pats [] = [] from rfl] at h
      exact absurd h (by simp)
    · intro h
      cases h with
      | fileHere hm _ _ => exact absurd hm (by simp)
      | dirThere hm _ _ => exact absurd hm (by simp)
  | cons e rest =>
    obtain ⟨name, child⟩ := e
    constructor
    · intro h
      unfold collectEntries at h
      rcases List.mem_append.mp h with h1 | h1
      · by_cases hm : matchedAny pats name child.isDirB = true
        · rw [if_pos hm] at h1
          exact absurd h1 (by simp)
        · rw [if_neg hm] at h1
          cases child with
          | file c =>
            by_cases hext : hasAllowedExt exts name = true
            · rw [if_pos hext] at h1
              rw [List.mem_singleton.mp h1]
              exact SelE.fileHere (c := c) (by simp)
                (by simpa [FTree.isDirB] using hm) hext
            · rw [if_neg hext] at h1
              exact absurd h1 (by simp)
          | dir sub =>
            obtain ⟨comps2, hc2, rfl⟩ := List.mem_map.mp h1
            exact SelE.dirThere (by simp)
              (by simpa [FTree.isDirB] using hm)
              ((mem_collectTree_iff exts pats (.dir sub) comps2).mp hc2)
      · have h2 := (mem_collectEntries_iff exts pats rest comps).mp h1
        cases h2 with
        | fileHere hm hmm hext =>
          exact SelE.fileHere (List.mem_cons_of_mem _ hm) hmm hext
        | dirThere hm hmm hsel =>
          exact SelE.dirThere (List.mem_cons_of_mem _ hm) hmm hsel
    · intro h
      cases h with
      | fileHere hm hmm hext =>
        rename_i name0 c0
        rcases List.mem_cons.mp hm with heq | hm2
        · cases heq
          unfold collectEntries
          apply List.mem_append_left
          rw [if_neg (by simp [FTree.isDirB, hmm]), if_pos hext]
          simp
        · unfold collectEntries
          apply List.mem_append_right
          exact (mem_collectEntries_iff exts pats rest _).mpr
            (SelE.fileHere hm2 hmm hext)
      | dirThere hm hmm hsel =>
        rename_i name0 sub comps2
        rcases List.mem_cons.mp hm with heq | hm2
        · cases heq
          unfold collectEntries
          apply List.mem_append_left
          rw [if_neg (by simp [FTree.isDirB, hmm])]
          exact List.mem_map.mpr ⟨comps2,
            (mem_collectTree_iff exts pats (.dir sub) comps2).mpr hsel, rfl⟩
        · unfold collectEntries
          apply List.mem_append_right
          exact (mem_collectEntries_iff exts pats rest _).mpr
            (SelE.dirThere hm2 hmm hsel)

end

/-- Claim C3: expansion of a directory recursively walks it, collects
exactly the files whose name carries an allow-listed extension and that no
.gitignore pattern found at any level of the walk excludes (matched files
and matched directories, together with everything below them, are
excluded), and returns the collected full paths sorted by full path.
Membership in the result coincides with the declarative selection relation
SelE, and the result is sorted under the lexicographic path order. -/
theorem claim_C3_expand_directory_gitignore (root : Str)
    (entries : List (Str × FTree)) (exts : List Str) :
    (∀ p, p ∈ expand_directory root entries exts ↔
      ∃ comps, SelE exts (entryGitignore entries) entries comps ∧
        p = joinPath root comps) ∧
    List.Sorted strLeP (expand_directory root entries exts) := by
  constructor
  · intro p
    unfold expand_directory
    rw [List.mem_insertionSort, List.mem_map]
    constructor
    · rintro ⟨comps, hc, rfl⟩
      exact ⟨comps,
        (mem_collectEntries_iff exts (entryGitignore entries) entries comps).mp hc, rfl⟩
    · rintro ⟨comps, hsel, rfl⟩
      exact ⟨comps,
        (mem_collectEntries_iff exts (entryGitignore entries) entries comps).mpr hsel,
        rfl⟩
  · exact List.sorted_insertionSort strLeP _

/-- A directory tree realizing the gitignore scenario of the repository's
own test_expand_directory_with_gitignore. -/
def gitignoreScenarioTree : List (Str × FTree) :=
  [(strOf ".gitignore", .file (strOf "ignored.txt\nignored_dir/\n")),
   (strOf "file1.txt", .file (strOf "content")),
   (strOf "file2.md", .file (strOf "content")),
   (strOf "ignored.txt", .file (strOf "should be ignored")),
   (strOf "ignored_dir", .dir [(strOf "ignored_file.txt", .file (strOf "x"))]),
   (strOf "normal_dir", .dir [(strOf "normal_file.txt", .file (strOf "y"))]),
   (strOf "file3.other", .file (strOf "z"))]

/-- The spec-modelled expansion reproduces the repository's gitignore test:
allow-listed files are kept, the gitignore-matched file and directory are
excluded, the non-allow-listed extension is excluded, and the result is
sorted by full path. -/
theorem expand_directory_gitignore_scenario :
    expand_directory (strOf "root") gitignoreScenarioTree =
      [strOf "root/file1.txt", strOf "root/file2.md",
       strOf "root/normal_dir/normal_file.txt"] := by
  rfl

end Nanodoc
